import Mathlib

/-!
Verification of the croissant Pastry-style DHT overlay.

Shallow embedding of the repository's ID arithmetic (src/id and the id
helpers), descriptor sets and routing state (src/internal/api), the
next-hop algorithm (src/internal/api/state_routing.go), the failure
detector job (src/internal/health/job.go), the ID generator
(src/id/generator.go) and the routing-repair walk of the controller,
together with theorems about routing, parsing, eviction, health
transitions and bounds.

Machine integers are modelled as naturals with explicit reductions
modulo 2^64 / 2^128 / 2^32 where the Go code can overflow.  Strings of
bytes are `List Nat`.  Fallible operations return `Option`.
-/

namespace Croissant

/-- 2^64, the modulus of one machine word. -/
def two64 : Nat := 2 ^ 64

/-- 128-bit ID as two 64-bit halves (src/id/id.go, `type ID struct { High, Low uint64 }`). -/
structure IDq where
  high : Nat
  low : Nat
deriving DecidableEq

/-- Well-formedness: both halves fit in 64 bits. -/
def IDq.wf (v : IDq) : Prop := v.high < two64 ∧ v.low < two64

instance (v : IDq) : Decidable v.wf := inferInstanceAs (Decidable (_ ∧ _))

/-- Numeric value of an ID. -/
def IDq.val (v : IDq) : Nat := v.high * two64 + v.low

/-- src/id/id.go `Zero`. -/
def zeroID : IDq := ⟨0, 0⟩

/-- src/id/id.go `Max`. -/
def maxID : IDq := ⟨2 ^ 64 - 1, 2 ^ 64 - 1⟩

/-- src/id/id.go `MaxForSize` (sizes outside {8,16,32,64,128} panic in Go). -/
def maxForSize (size : Nat) : IDq :=
  if size = 8 then ⟨0, 2 ^ 8 - 1⟩
  else if size = 16 then ⟨0, 2 ^ 16 - 1⟩
  else if size = 32 then ⟨0, 2 ^ 32 - 1⟩
  else if size = 64 then ⟨0, 2 ^ 64 - 1⟩
  else maxID

/-- math.go `add64`: v + o with 64-bit carry propagation, overflow out of the
    high word discarded. -/
def add64 (v : IDq) (o : Nat) : IDq :=
  let lo := (v.low + o) % two64
  let carry := (v.low + o) / two64
  ⟨(v.high + carry) % two64, lo⟩

/-- math.go `mul64`: v * o; the high half of v.High*o is discarded, as is the
    carry of the final addition. -/
def mul64 (v : IDq) (o : Nat) : IDq :=
  let hi1 := v.low * o / two64
  let lo := v.low * o % two64
  let p1 := v.high * o % two64
  ⟨(hi1 + p1) % two64, lo⟩

/-- Go `bits.Div64`: (hi:lo) / y with remainder.  Go panics when y = 0 or
    y ≤ hi; every call below is guarded so the quotient fits in one word. -/
def bitsDiv64 (hi lo y : Nat) : Nat × Nat :=
  ((hi * two64 + lo) / y, (hi * two64 + lo) % y)

/-- math.go `quoRem64`: v / o and v % o. -/
def quoRem64 (v : IDq) (o : Nat) : IDq × Nat :=
  if v.high < o then
    let qr := bitsDiv64 v.high v.low o
    (⟨0, qr.1⟩, qr.2)
  else
    let qh := bitsDiv64 0 v.high o
    let ql := bitsDiv64 qh.2 v.low o
    (⟨qh.1, ql.1⟩, ql.2)

/-- math.go `div64`: v / o. -/
def div64 (v : IDq) (o : Nat) : IDq := (quoRem64 v o).1

/-- math.go `shr`: v >> n.  Go shifts of a 64-bit word by ≥ 64 yield zero,
    hence the explicit reduction of High << (64-n) modulo 2^64. -/
def shr (v : IDq) (n : Nat) : IDq :=
  if n > 64 then ⟨0, v.high >>> (n - 64)⟩
  else ⟨v.high >>> n, (v.low >>> n) ||| ((v.high <<< (64 - n)) % two64)⟩

/-- math.go `and64`: v & n (only the low word is masked). -/
def and64 (v : IDq) (n : Nat) : IDq := ⟨0, v.low &&& n⟩

/-- src/id/id.go `Compare`: 0 if a = b, -1 if a < b, +1 if a > b. -/
def cmpID (a b : IDq) : Int :=
  if a.high = b.high ∧ a.low = b.low then 0
  else if a.high < b.high ∨ (a.high = b.high ∧ a.low < b.low) then -1
  else 1

/-- The digit loop of src/id/id.go `Parse`, one byte at a time; `cutoff` is
    Max/10.  The first test transcribes the source condition
    `c <= '0' && c >= '9'` verbatim (it is unsatisfiable, so malformed bytes
    are never rejected); `byte(c - '0')` wraps modulo 256. -/
def parseLoop (cutoff : IDq) : List Nat → IDq → Option IDq
  | [], res => some res
  | c :: cs, res =>
    if c ≤ 48 ∧ 57 ≤ c then none
    else
      let dig := (c + 256 - 48) % 256
      if 0 < cmpID res cutoff then none
      else
        let n := add64 (mul64 res 10) dig
        if cmpID n res ≤ 0 then none
        else parseLoop cutoff cs n

/-- src/id/id.go `Parse`: decimal string (byte codes) to ID; `none` models a
    returned error. -/
def parseID (s : List Nat) : Option IDq :=
  if s = [] ∨ s = [48] then some zeroID
  else parseLoop (div64 maxID 10) s zeroID

/-- Inner loop of src/id/id.go `ID.String`: writes the decimal digits of r
    into buf going down from index i-1 (the source increments n and then does
    `buf[i-n] += byte(r % 10)`), least-significant digit first. -/
def writeChunk (i : Nat) (buf : List Nat) (n r : Nat) : List Nat × Nat :=
  if h : r = 0 then (buf, n)
  else
    writeChunk i (buf.set (i - (n + 1)) (buf.getD (i - (n + 1)) 0 + r % 10)) (n + 1) (r / 10)
termination_by r
decreasing_by exact Nat.div_lt_self (Nat.pos_of_ne_zero h) (by norm_num)

/-- Outer loop of src/id/id.go `ID.String`: chops 19 decimal digits per
    round; i is the write cursor into the 40-byte buffer. -/
def stringLoop (v : IDq) (buf : List Nat) (i : Nat) : List Nat :=
  let qr := quoRem64 v (10 ^ 19)
  let bn := writeChunk i buf 0 qr.2
  if h : qr.1 = zeroID then bn.1.drop (i - bn.2)
  else stringLoop qr.1 bn.1 (i - 19)
termination_by v.val
decreasing_by
  have key : ((quoRem64 v (10 ^ 19)).1).val = v.val / 10 ^ 19 := by
    unfold quoRem64 bitsDiv64
    split
    · simp [IDq.val]
    · simp only [IDq.val]
      have hsplit : v.high * two64 + v.low
          = v.high % 10 ^ 19 * two64 + v.low + 10 ^ 19 * (v.high / 10 ^ 19 * two64) := by
        conv_lhs => rw [← Nat.mod_add_div v.high (10 ^ 19)]
        ring
      rw [Nat.zero_mul, Nat.zero_add, hsplit, Nat.add_mul_div_left _ _ (by positivity)]
      ring
  have hpos : 0 < v.val / 10 ^ 19 := by
    rcases Nat.eq_zero_or_pos (v.val / 10 ^ 19) with h0 | h0
    · exfalso
      apply h
      have hval0 : ((quoRem64 v (10 ^ 19)).1).val = 0 := by rw [key, h0]
      rcases hq : (quoRem64 v (10 ^ 19)).1 with ⟨qh, ql⟩
      rw [hq] at hval0
      simp only [IDq.val, Nat.add_eq_zero, Nat.mul_eq_zero, two64] at hval0
      have h2 : (2 : Nat) ^ 64 ≠ 0 := by positivity
      simp only [zeroID, IDq.mk.injEq]
      omega
    · exact h0
  have hge : 10 ^ 19 ≤ v.val := by
    by_contra hlt
    rw [Nat.div_eq_of_lt (by omega)] at hpos
    exact absurd hpos (lt_irrefl 0)
  calc ((quoRem64 v (10 ^ 19)).1).val = v.val / 10 ^ 19 := key
    _ < v.val := Nat.div_lt_self (by omega) (by norm_num)

/-- src/id/id.go `ID.String`: base-10 representation, as byte codes. -/
def idString (v : IDq) : List Nat :=
  if v = zeroID then [48]
  else stringLoop v (List.replicate 40 48) 40

/-- idconv.Log2: lookup table for powers of two up to 16 (other inputs
    panic in Go). -/
def log2c (n : Nat) : Nat :=
  if n = 1 then 0
  else if n = 2 then 1
  else if n = 4 then 2
  else if n = 8 then 3
  else if n = 16 then 4
  else 0

/-- idconv.Digits: number of digits of a size-bit integer written in the
    given base (bits rounded up to a multiple of log2 base). -/
def digitsCount (size base : Nat) : Nat :=
  let exp := log2c base
  let bits := (size + exp - 1) - (size + exp - 1) % exp
  bits / exp

/-- src/id/id.go `ID.Digits`: digit decomposition, most significant first;
    nil when the id exceeds maxForSize.  Invalid sizes / bases panic in Go.
    (The source's `if bits < exp*(i+1)` store of 0 is dead: it is always
    overwritten on the next line, and in range the shift count is never
    negative.) -/
def idDigits (v : IDq) (size base : Nat) : List Nat :=
  if 0 < cmpID v (maxForSize size) then []
  else
    let exp := log2c base
    let bits := (size + exp - 1) - (size + exp - 1) % exp
    (List.range (bits / exp)).map fun i =>
      (and64 (shr v (bits - exp * (i + 1))) (2 ^ exp - 1)).low

/-- Count of equal leading entries of two lists (the loop body of
    api.Prefix for equal-length lists). -/
def prefixLenN : List Nat → List Nat → Nat
  | a :: as, b :: bs => if a = b then prefixLenN as bs + 1 else 0
  | _, _ => 0

/-- src/internal/api/state.go `Prefix`: first index where a and b differ;
    the length when equal; -1 when the lengths differ. -/
def prefixLen (a b : List Nat) : Int :=
  if a.length ≠ b.length then -1 else prefixLenN a b

/-- src/internal/api Descriptor: (id, transport address). -/
structure Descriptor where
  id : IDq
  addr : String
deriving DecidableEq

/-- The zero value of Descriptor (Go `var next Descriptor`). -/
def zeroDesc : Descriptor := ⟨zeroID, ""⟩

/-- src/internal/api Health (Healthy = 0 is the Go zero value). -/
inductive Health
  | Healthy
  | Unhealthy
  | Dead
deriving DecidableEq

export Health (Healthy Unhealthy Dead)

/-- Go stdlib sort.Search: binary search for the least index in [i, j)
    satisfying f (assuming f monotone), j if none; the probe point h of the
    source is (i+j)/2. -/
def sortSearchGo (f : Nat → Bool) (i j : Nat) : Nat :=
  if _h : i < j then
    if f ((i + j) / 2) then sortSearchGo f i ((i + j) / 2)
    else sortSearchGo f ((i + j) / 2 + 1) j
  else i
termination_by j - i
decreasing_by
  all_goals omega

/-- src/internal/api DescriptorSet: bounded ordered set of descriptors.
    The SearchFunc field always holds the default comparison in the code
    paths the claims concern; it is therefore fixed to DefaultSearchFunc
    here (the wraparound variant is not constructed by the claims' code). -/
structure DescriptorSet where
  descriptors : List Descriptor
  size : Nat
  keepBiggest : Bool
deriving DecidableEq

/-- DefaultSearchFunc: true when i.ID >= j.ID. -/
def defaultSearch (i j : Descriptor) : Bool := decide (0 ≤ cmpID i.id j.id)

/-- DescriptorSet.indexOf: sort.Search over the descriptor list.  Go indexes
    the slice only at probes below the length; out-of-range access is
    modelled with a default that is never consulted. -/
def DescriptorSet.indexOf (dset : DescriptorSet) (d : Descriptor) : Nat :=
  sortSearchGo (fun i => defaultSearch (dset.descriptors.getD i zeroDesc) d)
    0 dset.descriptors.length

/-- DescriptorSet.Contains. -/
def DescriptorSet.containsD (dset : DescriptorSet) (d : Descriptor) : Bool :=
  let i := dset.indexOf d
  decide (i < dset.descriptors.length) && decide (dset.descriptors.getD i zeroDesc = d)

/-- DescriptorSet.Remove: deletes d, reporting whether it was present. -/
def DescriptorSet.removeD (dset : DescriptorSet) (d : Descriptor) : DescriptorSet × Bool :=
  let i := dset.indexOf d
  if i = dset.descriptors.length ∨ dset.descriptors.getD i zeroDesc ≠ d then (dset, false)
  else
    ({ dset with descriptors := dset.descriptors.take i ++ dset.descriptors.drop (i + 1) },
      true)

/-- DescriptorSet.IsFull. -/
def DescriptorSet.isFull (dset : DescriptorSet) : Bool :=
  decide (dset.descriptors.length = dset.size)

/-- The `for len > Size` trimming loop at the end of DescriptorSet.inject:
    drop the first element (keepBiggest) or the last one until the bound
    holds. -/
def trimToSize (keepBiggest : Bool) (size : Nat) (l : List Descriptor) : List Descriptor :=
  if h : l.length > size then
    trimToSize keepBiggest size (if keepBiggest then l.tail else l.dropLast)
  else l
termination_by l.length
decreasing_by
  split
  · have : l ≠ [] := by
      intro he
      rw [he] at h
      simp at h
    simp [List.length_tail]
    omega
  · have : l ≠ [] := by
      intro he
      rw [he] at h
      simp at h
    rw [List.length_dropLast]
    have : 0 < l.length := List.length_pos.mpr this
    omega

/-- DescriptorSet.inject: shared body of Push (insert=false) and Insert
    (insert=true). -/
def DescriptorSet.inject (dset : DescriptorSet) (d : Descriptor) (ins : Bool) :
    DescriptorSet × Bool :=
  if ¬ins ∧ dset.isFull then (dset, false)
  else
    let i := dset.indexOf d
    if i ≠ dset.descriptors.length ∧ dset.descriptors.getD i zeroDesc = d then (dset, false)
    else
      let injected :=
        if i = dset.descriptors.length then dset.descriptors ++ [d]
        else dset.descriptors.take i ++ [d] ++ dset.descriptors.drop i
      ({ dset with descriptors := trimToSize dset.keepBiggest dset.size injected }, true)

/-- DescriptorSet.Push. -/
def DescriptorSet.push (dset : DescriptorSet) (d : Descriptor) : DescriptorSet × Bool :=
  dset.inject d false

/-- DescriptorSet.Insert. -/
def DescriptorSet.insert (dset : DescriptorSet) (d : Descriptor) : DescriptorSet × Bool :=
  dset.inject d true

/-- src/internal/api/state.go State.  The mutex and the LastUpdated
    timestamp are omitted (no claim concerns them).  Statuses is a total
    function: a Go map lookup of an absent key yields the zero value
    Healthy. -/
structure StateL where
  node : Descriptor
  predecessors : DescriptorSet
  successors : DescriptorSet
  size : Nat
  base : Nat
  routing : List (List (Option Descriptor))
  neighbors : DescriptorSet
  statuses : Descriptor → Health

/-- State.leaves: predecessors then successors, keeping unhealthy entries
    only when all is set. -/
def StateL.leaves (s : StateL) (all : Bool) : List Descriptor :=
  (s.predecessors.descriptors.filter fun p => all || decide (s.statuses p = Healthy)) ++
    (s.successors.descriptors.filter fun p => all || decide (s.statuses p = Healthy))

/-- The routing-table entries other than the local node. -/
def routingEntries (s : StateL) : List Descriptor :=
  (s.routing.map fun row =>
    row.filterMap fun c =>
      match c with
      | none => none
      | some p => if p = s.node then none else some p).flatten

/-- State.peers: the source collects the unique peers into a Go map, whose
    iteration order is unspecified; modelled as a first-occurrence
    deduplicated list in table order. -/
def StateL.peersList (s : StateL) (all : Bool) : List Descriptor :=
  ((s.predecessors.descriptors ++ s.successors.descriptors ++ routingEntries s ++
      s.neighbors.descriptors).dedup).filter
    fun p => all || decide (s.statuses p = Healthy)

/-- One segment test of inLeafRange (state_routing.go lines 111-129): the
    wraparound disjunction when from > to, the conjunction otherwise. -/
def segInRange (a b key : IDq) : Bool :=
  if 0 < cmpID a b then decide (cmpID a key ≤ 0) || decide (cmpID key b ≤ 0)
  else decide (cmpID a key ≤ 0) && decide (cmpID key b ≤ 0)

/-- The adjacent-pair scan of inLeafRange (state_routing.go lines 106-130). -/
def segScan (key : IDq) : List Descriptor → Bool
  | a :: b :: rest => segInRange a.id b.id key || segScan key (b :: rest)
  | _ => false

/-- src/internal/api/state_routing.go inLeafRange. -/
def inLeafRange (s : StateL) (key : IDq) : Bool :=
  if ¬s.predecessors.isFull ∨ ¬s.successors.isFull then true
  else segScan key (s.predecessors.descriptors ++ [s.node] ++ s.successors.descriptors)

/-- Modelled from the spec: the State.distance method is absent from src
    (only its call sites in NextHop are present); spec §4.4 fixes the
    canonical distance to the linear |a − b| on the 128-bit values. -/
def distL (a b : IDq) : Nat := max a.val b.val - min a.val b.val

/-- The leaf-range branch of NextHop: scan self and the Healthy leaves for
    the minimum distance to the key, first minimum wins. -/
def nextHopLeafFold (s : StateL) (key : IDq) : Nat × Descriptor :=
  (s.leaves true).foldl
    (fun acc n =>
      if s.statuses n ≠ Healthy then acc
      else
        let dist := distL n.id key
        if dist < acc.1 then (dist, n) else acc)
    (distL s.node.id key, s.node)

/-- The rare-fallback loop of NextHop (state_routing.go lines 62-87): any
    Healthy peer whose prefix match with the key is at least ours and whose
    distance is strictly smaller; `next` starts as the zero Descriptor and
    ok as false. -/
def nextHopFallback (s : StateL) (key : IDq) (keyDigits : List Nat) (pl : Int) :
    Descriptor × Bool :=
  ((s.peersList false).foldl
    (fun acc p =>
      let candDigits := idDigits p.id s.size s.base
      let candPL := prefixLen candDigits keyDigits
      if candPL < pl then acc
      else
        let dist := distL p.id key
        if dist < acc.1 then (dist, (p, true)) else acc)
    (distL s.node.id key, (zeroDesc, false))).2

/-- src/internal/api/state_routing.go NextHop.  Go indexes the routing
    table and keyDigits directly (panicking out of range); the getD defaults
    are never consulted under the hypotheses used below. -/
def nextHop (s : StateL) (key : IDq) : Descriptor × Bool :=
  if inLeafRange s key then ((nextHopLeafFold s key).2, true)
  else
    let ourDigits := idDigits s.node.id s.size s.base
    let keyDigits := idDigits key s.size s.base
    let pl := prefixLen ourDigits keyDigits
    match (s.routing.getD pl.toNat []).getD (keyDigits.getD pl.toNat 0) none with
    | some ent =>
      if s.statuses ent = Healthy then (ent, true)
      else nextHopFallback s key keyDigits pl
    | none => nextHopFallback s key keyDigits pl

/-- Specification variant of inLeafRange for refinement claim C2, from the
    spec's words (§4.4): the minimum predecessor id. -/
def minIdVal (l : List Descriptor) : Nat := (l.map fun d => d.id.val).foldr min (2 ^ 128)

/-- Specification variant of inLeafRange: the maximum successor id. -/
def maxIdVal (l : List Descriptor) : Nat := (l.map fun d => d.id.val).foldr max 0

/-- Specification variant of inLeafRange (claim C2, from the spec's words):
    true when either leaf set is not yet full, else
    min(predecessors).id ≤ key ≤ max(successors).id. -/
def inLeafRangeLinear (s : StateL) (key : IDq) : Bool :=
  if ¬s.predecessors.isFull ∨ ¬s.successors.isFull then true
  else
    decide (minIdVal s.predecessors.descriptors ≤ key.val ∧
      key.val ≤ maxIdVal s.successors.descriptors)

/-- Every descriptor the state knows: leaf sets, routing table and
    neighborhood (claim C1's "known to S"). -/
def knownDescriptors (s : StateL) : List Descriptor :=
  s.predecessors.descriptors ++ s.successors.descriptors ++
    ((s.routing.map fun row => row.filterMap fun c => c).flatten) ++
    s.neighbors.descriptors

/-- The shared-prefix row index computed by State.mixinRoutes before it
    reads peer.Routing[overlap] (state.go lines 252-256). -/
def mixinOverlap (s peer : StateL) : Int :=
  prefixLen (idDigits s.node.id s.size s.base) (idDigits peer.node.id s.size s.base)

/-- FNV-1a 32-bit hash of a byte string (Go hash/fnv New32a), with the
    explicit reduction modulo 2^32 at each multiplication.  Reading the
    4-byte big-endian Sum with binary.BigEndian.Uint32 returns this sum. -/
def fnv32a (s : List Nat) : Nat :=
  s.foldl (fun h b => ((h ^^^ b) * 16777619) % 2 ^ 32) 2166136261

/-- src/id/generator.go gen8.Get: the ID keeps only the low 8 bits of the
    FNV-32a sum (`sum & math.MaxUint8`). -/
def gen8get (s : List Nat) : IDq := ⟨0, fnv32a s &&& (2 ^ 8 - 1)⟩

/-- src/id/generator.go gen16.Get: low 16 bits of the FNV-32a sum. -/
def gen16get (s : List Nat) : IDq := ⟨0, fnv32a s &&& (2 ^ 16 - 1)⟩

/-- src/id/generator.go gen32.Get: the full FNV-32a sum. -/
def gen32get (s : List Nat) : IDq := ⟨0, fnv32a s⟩

/-- The formula claim C7 asserts of the generator, from the spec's words:
    fold the high and low halves of the hash output by XOR, then reduce
    modulo max(hash_size).  The generator's hash output is the 32-bit
    FNV-32a sum, so its halves are 16-bit. -/
def specFoldReduce (size : Nat) (sum : Nat) : Nat :=
  ((sum / 2 ^ 16) ^^^ (sum % 2 ^ 16)) % (maxForSize size).val

/-- The mutable fields of a failure-detector job
    (src/internal/health/job.go). -/
structure JobState where
  health : Health
  failedAttempts : Nat
deriving DecidableEq

/-- job.SetHealth: ignore an unchanged health and the forbidden
    Dead→Unhealthy transition; reset failedAttempts when moving to Healthy;
    otherwise record the health and emit HealthChanged (asynchronous in Go,
    modelled as the returned event). -/
def setHealthJ (j : JobState) (h : Health) : JobState × Option Health :=
  if j.health = h ∨ (j.health = Dead ∧ h = Unhealthy) then (j, none)
  else
    ({ health := h, failedAttempts := if h = Healthy then 0 else j.failedAttempts },
      some h)

/-- job.processCheckResult: success restores Healthy; a failure below the
    MaxFailures budget increments the counter and requests Unhealthy; an
    exhausted budget requests Dead. -/
def processCheckResult (maxFailures : Nat) (j : JobState) (success : Bool) :
    JobState × Option Health :=
  if success then setHealthJ j Healthy
  else if j.failedAttempts < maxFailures then
    setHealthJ { j with failedAttempts := j.failedAttempts + 1 } Unhealthy
  else setHealthJ j Dead

/-- An input to a job: a probe outcome or an explicit SetHealth call. -/
inductive JobInput
  | probe (success : Bool)
  | set (h : Health)

/-- One step of the job under an input. -/
def jobStep (maxFailures : Nat) (j : JobState) : JobInput → JobState × Option Health
  | .probe b => processCheckResult maxFailures j b
  | .set h => setHealthJ j h

/-- The trace of a job on an input sequence: the health before each step
    paired with the HealthChanged event emitted by that step, if any. -/
def jobRun (maxFailures : Nat) (j : JobState) :
    List JobInput → List (Health × Option Health)
  | [] => []
  | i :: is =>
    let st := jobStep maxFailures j i
    (j.health, st.2) :: jobRun maxFailures st.1 is

/-- The candidate enumeration of the controller's routing repair (the
    HealthChanged routing branch): clear the dead cell, then walk the rows
    of the saved table starting at index routingCol — the source reads
    `for row := routingCol; row < len(saved.Routing); row++` — collecting
    the Healthy entries of each row in column order. -/
def repairWalkCandidates (routing : List (List (Option Descriptor)))
    (statuses : Descriptor → Health) (routingRow routingCol : Nat) : List Descriptor :=
  let cleared := routing.set routingRow ((routing.getD routingRow []).set routingCol none)
  ((cleared.drop routingCol).map fun row =>
    row.filterMap fun c =>
      match c with
      | none => none
      | some ent => if statuses ent = Healthy then some ent else none).flatten

/-- The walk claim C4 describes, from the spec's words: start at the dead
    entry's row r and proceed to higher rows, querying the Healthy entries
    of each row. -/
def specRepairWalkCandidates (routing : List (List (Option Descriptor)))
    (statuses : Descriptor → Health) (routingRow routingCol : Nat) : List Descriptor :=
  let cleared := routing.set routingRow ((routing.getD routingRow []).set routingCol none)
  ((cleared.drop routingRow).map fun row =>
    row.filterMap fun c =>
      match c with
      | none => none
      | some ent => if statuses ent = Healthy then some ent else none).flatten

/-- A DescriptorSet operation (claim C8). -/
inductive DSetOp
  | push (d : Descriptor)
  | insert (d : Descriptor)
  | remove (d : Descriptor)

/-- Apply one DescriptorSet operation. -/
def applyOp (dset : DescriptorSet) : DSetOp → DescriptorSet
  | .push d => (dset.push d).1
  | .insert d => (dset.insert d).1
  | .remove d => (dset.removeD d).1

/-- Apply a sequence of DescriptorSet operations. -/
def applyOps (dset : DescriptorSet) (ops : List DSetOp) : DescriptorSet :=
  ops.foldl applyOp dset

/-- Concrete state for claim C1 (size 8, base 16, two routing rows): the
    local node 0 with an unfilled predecessor set, one healthy successor
    100, and a healthy routing entry 8 at cell (1, 8). -/
def c1state : StateL :=
  { node := ⟨⟨0, 0⟩, "self"⟩
    predecessors := ⟨[], 1, true⟩
    successors := ⟨[⟨⟨0, 100⟩, "p100"⟩], 1, false⟩
    size := 8
    base := 16
    routing :=
      [(List.range 16).map fun c => if c = 0 then some ⟨⟨0, 0⟩, "self"⟩ else none,
        (List.range 16).map fun c =>
          if c = 0 then some ⟨⟨0, 0⟩, "self"⟩
          else if c = 8 then some ⟨⟨0, 8⟩, "p8"⟩ else none]
    neighbors := ⟨[], 4, false⟩
    statuses := fun _ => Healthy }

/-- Concrete state for claim C3 (size 8, base 16): the local node 0x30 with
    full leaf sets whose two leaves 0x20 and 0x40 are both Unhealthy, and
    no other peers. -/
def c3state : StateL :=
  { node := ⟨⟨0, 0x30⟩, "self"⟩
    predecessors := ⟨[⟨⟨0, 0x20⟩, "p"⟩], 1, true⟩
    successors := ⟨[⟨⟨0, 0x40⟩, "s"⟩], 1, false⟩
    size := 8
    base := 16
    routing :=
      [(List.range 16).map fun c => if c = 3 then some ⟨⟨0, 0x30⟩, "self"⟩ else none,
        (List.range 16).map fun c => if c = 0 then some ⟨⟨0, 0x30⟩, "self"⟩ else none]
    neighbors := ⟨[], 4, false⟩
    statuses := fun d => if d = ⟨⟨0, 0x30⟩, "self"⟩ then Healthy else Unhealthy }

/-! ## Basic lemmas about the ID embedding -/

theorem IDq.val_lt_two128 (v : IDq) (hv : v.wf) : v.val < 2 ^ 128 := by
  obtain ⟨h1, h2⟩ := hv
  simp only [two64] at h1 h2
  simp only [IDq.val, two64]
  nlinarith

theorem IDq.val_inj {a b : IDq} (ha : a.wf) (hb : b.wf) (h : a.val = b.val) : a = b := by
  obtain ⟨ha1, ha2⟩ := ha
  obtain ⟨hb1, hb2⟩ := hb
  simp only [two64] at ha1 ha2 hb1 hb2
  simp only [IDq.val, two64] at h
  rcases a with ⟨ah, al⟩
  rcases b with ⟨bh, bl⟩
  simp only [IDq.mk.injEq]
  simp only at ha1 ha2 hb1 hb2 h
  omega

theorem IDq.val_eq_zero_iff (v : IDq) : v.val = 0 ↔ v = zeroID := by
  rcases v with ⟨vh, vl⟩
  simp only [IDq.val, two64, zeroID, IDq.mk.injEq]
  constructor
  · intro h
    constructor <;> nlinarith
  · rintro ⟨rfl, rfl⟩
    simp

theorem cmpID_eq_zero_iff (a b : IDq) : cmpID a b = 0 ↔ a = b := by
  rcases a with ⟨ah, al⟩
  rcases b with ⟨bh, bl⟩
  simp only [cmpID, IDq.mk.injEq]
  split
  · simp_all
  · split <;> simp_all

theorem cmpID_lt_zero_iff (a b : IDq) (ha : a.wf) (hb : b.wf) :
    cmpID a b < 0 ↔ a.val < b.val := by
  obtain ⟨ha1, ha2⟩ := ha
  obtain ⟨hb1, hb2⟩ := hb
  simp only [two64] at ha1 ha2 hb1 hb2
  simp only [cmpID, IDq.val, two64]
  split <;> rename_i h1
  · omega
  · split <;> rename_i h2
    · omega
    · omega

theorem cmpID_pos_iff (a b : IDq) (ha : a.wf) (hb : b.wf) :
    0 < cmpID a b ↔ b.val < a.val := by
  obtain ⟨ha1, ha2⟩ := ha
  obtain ⟨hb1, hb2⟩ := hb
  simp only [two64] at ha1 ha2 hb1 hb2
  simp only [cmpID, IDq.val, two64]
  split <;> rename_i h1
  · omega
  · split <;> rename_i h2
    · omega
    · omega

theorem cmpID_le_zero_iff (a b : IDq) (ha : a.wf) (hb : b.wf) :
    cmpID a b ≤ 0 ↔ a.val ≤ b.val := by
  obtain ⟨ha1, ha2⟩ := ha
  obtain ⟨hb1, hb2⟩ := hb
  simp only [two64] at ha1 ha2 hb1 hb2
  simp only [cmpID, IDq.val, two64]
  split <;> rename_i h1
  · omega
  · split <;> rename_i h2
    · omega
    · omega

theorem cmpID_nonneg_iff (a b : IDq) (ha : a.wf) (hb : b.wf) :
    0 ≤ cmpID a b ↔ b.val ≤ a.val := by
  obtain ⟨ha1, ha2⟩ := ha
  obtain ⟨hb1, hb2⟩ := hb
  simp only [two64] at ha1 ha2 hb1 hb2
  simp only [cmpID, IDq.val, two64]
  split <;> rename_i h1
  · omega
  · split <;> rename_i h2
    · omega
    · omega

/-! ## Claim C6 — Parse error handling -/

/-- C6 (code bug): the character check of Parse, `c <= '0' && c >= '9'`, is
    unsatisfiable, so the malformed string "a" (byte 97) is not rejected:
    its byte is treated as the digit 49 and Parse returns the ID 49 with no
    error, where the claim requires an error for any character outside
    '0'..'9'. -/
theorem c6_parse_accepts_malformed : parseID [97] = some ⟨0, 49⟩ := by decide

/-! ## Claim C7 — ID generator -/

/-- C7 counterexample: for the FNV-variant generator of src/id/generator.go
    on the empty input, the size-8 ID is the masked low byte of the 32-bit
    hash sum (197), not the XOR-fold of the hash's high and low halves
    reduced modulo max(8) (245) that the claim asserts. -/
theorem c7_counterexample :
    gen8get [] ≠ ⟨0, specFoldReduce 8 (fnv32a [])⟩ := by decide

/-- The FNV-32a sum fits in 32 bits. -/
theorem fnv32a_lt (s : List Nat) : fnv32a s < 2 ^ 32 := by
  suffices h : ∀ a : Nat, a < 2 ^ 32 → s.foldl (fun h b => ((h ^^^ b) * 16777619) % 2 ^ 32) a < 2 ^ 32 by
    exact h 2166136261 (by norm_num)
  induction s with
  | nil => intro a ha; simpa [fnv32a]
  | cons c cs ih =>
    intro a _
    simp only [List.foldl_cons]
    exact ih _ (Nat.mod_lt _ (by norm_num))

/-- C7 amended: the FNV-variant generator keeps only the low hash_size bits
    of the 32-bit hash sum for sizes 8 and 16 (discarding the high hash
    bytes) and the whole sum for size 32; in each case the generated ID
    fits in hash_size bits. -/
theorem c7_generator_masks (s : List Nat) :
    gen8get s = ⟨0, fnv32a s % 2 ^ 8⟩ ∧ (gen8get s).val < 2 ^ 8 ∧
      gen16get s = ⟨0, fnv32a s % 2 ^ 16⟩ ∧ (gen16get s).val < 2 ^ 16 ∧
      gen32get s = ⟨0, fnv32a s⟩ ∧ (gen32get s).val < 2 ^ 32 := by
  have hm8 := Nat.and_pow_two_sub_one_eq_mod (fnv32a s) 8
  have hm16 := Nat.and_pow_two_sub_one_eq_mod (fnv32a s) 16
  have h32 := fnv32a_lt s
  refine ⟨?_, ?_, ?_, ?_, rfl, ?_⟩
  · simp [gen8get, hm8]
  · simp only [gen8get, IDq.val, two64, hm8]
    have := Nat.mod_lt (fnv32a s) (y := 2 ^ 8) (by norm_num)
    omega
  · simp [gen16get, hm16]
  · simp only [gen16get, IDq.val, two64, hm16]
    have := Nat.mod_lt (fnv32a s) (y := 2 ^ 16) (by norm_num)
    omega
  · simp only [gen32get, IDq.val, two64]
    omega

/-! ## Claim C4 — routing repair walk -/

/-- C4 (code bug): the controller's routing repair walks the rows starting
    at the dead entry's column index (`for row := routingCol`), not its row.
    With the dead descriptor at cell (0, 2) of a 4x4 table and a Healthy
    candidate at cell (0, 1), the code's walk covers rows 2 and 3 and
    queries nobody, while the walk the claim describes (rows 0, 1, 2, 3)
    queries the candidate. -/
theorem c4_repair_walk_starts_at_col :
    repairWalkCandidates
        [[none, some ⟨⟨0, 1⟩, "good"⟩, some ⟨⟨0, 2⟩, "dead"⟩, none],
          [none, none, none, none], [none, none, none, none], [none, none, none, none]]
        (fun d => if d = ⟨⟨0, 2⟩, "dead"⟩ then Dead else Healthy) 0 2 = [] ∧
      specRepairWalkCandidates
        [[none, some ⟨⟨0, 1⟩, "good"⟩, some ⟨⟨0, 2⟩, "dead"⟩, none],
          [none, none, none, none], [none, none, none, none], [none, none, none, none]]
        (fun d => if d = ⟨⟨0, 2⟩, "dead"⟩ then Dead else Healthy) 0 2
        = [⟨⟨0, 1⟩, "good"⟩] := by
  constructor <;> rfl

/-! ## Claim C9 — no Dead→Unhealthy event -/

/-- One step from Dead: an Unhealthy event is suppressed, and if the health
    changes at all, it changes to Healthy with a Healthy event. -/
theorem jobStep_dead (mf : Nat) (j : JobState) (hd : j.health = Dead) (i : JobInput) :
    (jobStep mf j i).2 ≠ some Unhealthy ∧
      ((jobStep mf j i).1.health = Dead ∨
        ((jobStep mf j i).1.health = Healthy ∧ (jobStep mf j i).2 = some Healthy)) := by
  cases i with
  | probe b =>
    cases b <;>
      simp only [jobStep, processCheckResult, setHealthJ, hd] <;>
      split_ifs <;> simp_all
  | set h =>
    simp only [jobStep, setHealthJ, hd]
    split_ifs with h1 h2 <;> simp_all
    cases h <;> simp_all

/-- C9: the failure-detector job never emits Dead→Unhealthy: in every trace
    of probe results and explicit SetHealth calls, a step whose pre-state
    health is Dead never produces an Unhealthy event. -/
theorem c9_no_dead_to_unhealthy (mf : Nat) (j : JobState) (inputs : List JobInput) :
    ∀ pre evt, (pre, evt) ∈ jobRun mf j inputs → pre = Dead → evt ≠ some Unhealthy := by
  induction inputs generalizing j with
  | nil => intro pre evt h; simp [jobRun] at h
  | cons i is ih =>
    intro pre evt h hpre
    simp only [jobRun, List.mem_cons] at h
    rcases h with h | h
    · injection h with h1 h2
      have hj : j.health = Dead := h1 ▸ hpre
      subst h2
      exact (jobStep_dead mf j hj i).1
    · exact ih _ _ _ h hpre

/-- Witness for C9: a Dead job with one remaining attempt receives a failed
    probe; the trace records the Dead pre-state with no event emitted. -/
theorem c9_witness :
    (Dead, (none : Option Health)) ∈ jobRun 1 ⟨Dead, 0⟩ [JobInput.probe false] ∧
      (none : Option Health) ≠ some Unhealthy :=
  ⟨by decide,
    c9_no_dead_to_unhealthy 1 ⟨Dead, 0⟩ [JobInput.probe false] Dead none (by decide) rfl⟩

/-! ## Claim C1 — self-minimality of NextHop -/

/-- The selection loop of the leaf-range branch of NextHop: the accumulator
    always carries the distance of its descriptor, the distance never
    increases, and the final distance is at most that of every Healthy
    element scanned. -/
theorem leafFold_spec (s : StateL) (key : IDq) (l : List Descriptor) (a0 : Nat × Descriptor)
    (h0 : a0.1 = distL a0.2.id key) :
    (l.foldl (fun acc n => if s.statuses n ≠ Healthy then acc
        else if distL n.id key < acc.1 then (distL n.id key, n) else acc) a0).1
        = distL (l.foldl (fun acc n => if s.statuses n ≠ Healthy then acc
        else if distL n.id key < acc.1 then (distL n.id key, n) else acc) a0).2.id key ∧
      (l.foldl (fun acc n => if s.statuses n ≠ Healthy then acc
        else if distL n.id key < acc.1 then (distL n.id key, n) else acc) a0).1 ≤ a0.1 ∧
      ∀ d ∈ l, s.statuses d = Healthy →
        (l.foldl (fun acc n => if s.statuses n ≠ Healthy then acc
          else if distL n.id key < acc.1 then (distL n.id key, n) else acc) a0).1
          ≤ distL d.id key := by
  induction l generalizing a0 with
  | nil => exact ⟨h0, le_refl _, by simp⟩
  | cons d l ih =>
    simp only [List.foldl_cons]
    set a1 := if s.statuses d ≠ Healthy then a0
      else if distL d.id key < a0.1 then (distL d.id key, d) else a0 with ha1
    have h1 : a1.1 = distL a1.2.id key := by
      rw [ha1]
      split_ifs <;> simp [h0]
    have hle : a1.1 ≤ a0.1 := by
      rw [ha1]
      split_ifs <;> omega
    have hd : s.statuses d = Healthy → a1.1 ≤ distL d.id key := by
      intro hh
      rw [ha1]
      split_ifs with h1 h2
      · exact absurd hh h1
      · exact le_refl _
      · exact le_of_not_lt h2
    obtain ⟨r1, r2, r3⟩ := ih a1 h1
    refine ⟨r1, le_trans r2 hle, ?_⟩
    intro e he hh
    rcases List.mem_cons.mp he with rfl | he
    · exact le_trans r2 (hd hh)
    · exact r3 e he hh

/-- Members of both leaf sets are members of leaves(true). -/
theorem mem_leaves_true (s : StateL) (d : Descriptor)
    (h : d ∈ s.predecessors.descriptors ∨ d ∈ s.successors.descriptors) :
    d ∈ s.leaves true := by
  simp only [StateL.leaves, Bool.true_or, List.filter_true, List.mem_append]
  exact h

/-- C1 amended: when the key lies in the leaf range and NextHop returns a
    descriptor carrying the local node's id, the local node is at minimal
    distance to the key among itself and every Healthy leaf; the
    minimality does not extend to Healthy routing-table or neighborhood
    descriptors (see the counterexample). -/
theorem c1_nextHop_self_min_leaves (s : StateL) (key : IDq)
    (hleaf : inLeafRange s key = true)
    (hid : (nextHop s key).1.id = s.node.id) :
    ∀ d, (d ∈ s.predecessors.descriptors ∨ d ∈ s.successors.descriptors) →
      s.statuses d = Healthy → distL s.node.id key ≤ distL d.id key := by
  intro d hd hh
  have hnh : nextHop s key = ((nextHopLeafFold s key).2, true) := by
    simp [nextHop, hleaf]
  obtain ⟨r1, _r2, r3⟩ := leafFold_spec s key (s.leaves true)
    (distL s.node.id key, s.node) rfl
  have hfold : (nextHopLeafFold s key) = ((s.leaves true).foldl
      (fun acc n => if s.statuses n ≠ Healthy then acc
        else if distL n.id key < acc.1 then (distL n.id key, n) else acc)
      (distL s.node.id key, s.node)) := rfl
  have hid2 : (nextHopLeafFold s key).2.id = s.node.id := by rw [hnh] at hid; exact hid
  have hdist : (nextHopLeafFold s key).1 = distL s.node.id key := by
    rw [hfold, r1, ← hfold, hid2]
  have := r3 d (mem_leaves_true s d hd) hh
  rw [← hfold, hdist] at this
  exact this

/-- C1 counterexample: in `c1state` the predecessor set is not yet full, so
    the key 8 is treated as in leaf range and NextHop returns the local
    node 0, even though the Healthy routing-table descriptor 8 is strictly
    closer to the key — the claimed minimality over all known Healthy
    descriptors fails. -/
theorem c1_counterexample :
    (nextHop c1state ⟨0, 8⟩).1.id = c1state.node.id ∧
      (nextHop c1state ⟨0, 8⟩).2 = true ∧
      ⟨⟨0, 8⟩, "p8"⟩ ∈ knownDescriptors c1state ∧
      c1state.statuses ⟨⟨0, 8⟩, "p8"⟩ = Healthy ∧
      distL (⟨⟨0, 8⟩, "p8"⟩ : Descriptor).id ⟨0, 8⟩ < distL c1state.node.id ⟨0, 8⟩ := by
  refine ⟨by decide, by decide, by decide, by decide, by decide⟩

/-- Witness for C1 (amended): at `c1state` and key 8 the leaf-range and
    returned-id hypotheses hold, and the local node's distance is bounded
    by that of the Healthy successor 100. -/
theorem c1_witness :
    inLeafRange c1state ⟨0, 8⟩ = true ∧
      (nextHop c1state ⟨0, 8⟩).1.id = c1state.node.id ∧
      distL c1state.node.id ⟨0, 8⟩ ≤ distL (⟨⟨0, 100⟩, "p100"⟩ : Descriptor).id ⟨0, 8⟩ :=
  ⟨by decide, by decide,
    c1_nextHop_self_min_leaves c1state ⟨0, 8⟩ (by decide) (by decide)
      ⟨⟨0, 100⟩, "p100"⟩ (by decide) (by decide)⟩

/-! ## Claim C3 — NextHop fallback with no qualifying peer -/

/-- The fallback loop of NextHop leaves its accumulator untouched when no
    scanned peer has both a prefix match at least `pl` and a strictly
    smaller distance than the accumulated one. -/
theorem fallbackFold_const (s : StateL) (key : IDq) (keyDigits : List Nat) (pl : Int)
    (l : List Descriptor) (d0 : Nat)
    (hnone : ∀ p ∈ l, ¬(pl ≤ prefixLen (idDigits p.id s.size s.base) keyDigits ∧
      distL p.id key < d0)) :
    l.foldl (fun acc p =>
        if prefixLen (idDigits p.id s.size s.base) keyDigits < pl then acc
        else if distL p.id key < acc.1 then (distL p.id key, (p, true)) else acc)
      (d0, (zeroDesc, false)) = (d0, (zeroDesc, false)) := by
  induction l with
  | nil => rfl
  | cons p l ih =>
    simp only [List.foldl_cons]
    have hp := hnone p (List.mem_cons_self p l)
    have hstep : (if prefixLen (idDigits p.id s.size s.base) keyDigits < pl
        then (d0, (zeroDesc, false))
        else if distL p.id key < d0 then (distL p.id key, (p, true))
        else (d0, (zeroDesc, false))) = (d0, (zeroDesc, false)) := by
      split_ifs with h1 h2
      · rfl
      · exact absurd ⟨le_of_not_lt h1, h2⟩ hp
      · rfl
    rw [hstep]
    exact ih fun q hq => hnone q (List.mem_cons_of_mem p hq)

/-- C3 amended: in the rare-fallback step (key outside the leaf range and no
    usable routing cell), when no Healthy peer has a prefix match at least
    as long as the local node's together with a strictly smaller distance
    to the key, NextHop returns the zero Descriptor with ok = false — a
    routing failure — rather than the local node. -/
theorem c3_fallback_none_returns_failure (s : StateL) (key : IDq)
    (hnotleaf : inLeafRange s key = false)
    (hcell : (((s.routing.getD (prefixLen (idDigits s.node.id s.size s.base)
        (idDigits key s.size s.base)).toNat []).getD
        ((idDigits key s.size s.base).getD (prefixLen (idDigits s.node.id s.size s.base)
          (idDigits key s.size s.base)).toNat 0) none).all
        fun ent => decide (s.statuses ent ≠ Healthy)) = true)
    (hnone : ∀ p ∈ s.peersList false,
      ¬(prefixLen (idDigits s.node.id s.size s.base) (idDigits key s.size s.base)
          ≤ prefixLen (idDigits p.id s.size s.base) (idDigits key s.size s.base) ∧
        distL p.id key < distL s.node.id key)) :
    nextHop s key = (zeroDesc, false) := by
  have hfb : nextHopFallback s key (idDigits key s.size s.base)
      (prefixLen (idDigits s.node.id s.size s.base) (idDigits key s.size s.base))
      = (zeroDesc, false) := by
    unfold nextHopFallback
    rw [fallbackFold_const s key _ _ _ _ hnone]
  unfold nextHop
  rw [hnotleaf]
  simp only [Bool.false_eq_true, if_false]
  cases hc : ((s.routing.getD (prefixLen (idDigits s.node.id s.size s.base)
      (idDigits key s.size s.base)).toNat []).getD
      ((idDigits key s.size s.base).getD (prefixLen (idDigits s.node.id s.size s.base)
        (idDigits key s.size s.base)).toNat 0) none) with
  | none => exact hfb
  | some ent =>
    rw [hc] at hcell
    simp only [Option.all_some, decide_eq_true_eq] at hcell
    show (if s.statuses ent = Healthy then ((ent, true) : Descriptor × Bool)
        else nextHopFallback s key (idDigits key s.size s.base)
          (prefixLen (idDigits s.node.id s.size s.base) (idDigits key s.size s.base)))
        = (zeroDesc, false)
    rw [if_neg hcell]
    exact hfb

/-- C3 counterexample: in `c3state` the key 0x80 is outside the leaf range,
    the routing cell for it is empty, and no Healthy peer qualifies, yet
    NextHop returns (zero Descriptor, false) — a failure — and not the
    local node as the claim asserts. -/
theorem c3_counterexample :
    nextHop c3state ⟨0, 0x80⟩ = (zeroDesc, false) ∧
      (nextHop c3state ⟨0, 0x80⟩).1 ≠ c3state.node ∧
      (nextHop c3state ⟨0, 0x80⟩).2 ≠ true := by
  refine ⟨by decide, by decide, by decide⟩

/-- Witness for C3 (amended) at `c3state` and key 0x80: all three
    hypotheses hold and NextHop returns the failure pair. -/
theorem c3_witness :
    inLeafRange c3state ⟨0, 0x80⟩ = false ∧
      nextHop c3state ⟨0, 0x80⟩ = (zeroDesc, false) :=
  ⟨by decide,
    c3_fallback_none_returns_failure c3state ⟨0, 0x80⟩ (by decide) (by decide) (by decide)⟩

/-! ## Claim C2 — inLeafRange refines the linear characterisation -/

/-- In a ≤-chained descriptor list the head's value bounds the last's. -/
theorem chain_head_le_getLast (x : Descriptor) (xs : List Descriptor)
    (hch : List.Chain' (fun a b : Descriptor => a.id.val ≤ b.id.val) (x :: xs)) :
    x.id.val ≤ ((x :: xs).getLast (List.cons_ne_nil x xs)).id.val := by
  induction xs generalizing x with
  | nil => simp
  | cons y ys ih =>
    rw [List.getLast_cons (List.cons_ne_nil y ys)]
    exact le_trans (List.chain'_cons.mp hch).1 (ih y (List.chain'_cons.mp hch).2)

/-- One segment test on an ordered pair is the plain interval test. -/
theorem segInRange_iff (a b key : IDq) (ha : a.wf) (hb : b.wf) (hk : key.wf)
    (hab : a.val ≤ b.val) :
    segInRange a b key = true ↔ (a.val ≤ key.val ∧ key.val ≤ b.val) := by
  unfold segInRange
  rw [if_neg]
  · simp only [Bool.and_eq_true, decide_eq_true_eq]
    rw [cmpID_le_zero_iff a key ha hk, cmpID_le_zero_iff key b hk hb]
  · rw [cmpID_pos_iff a b ha hb]
    omega

/-- The segment-pair scan over a ≤-chained list of at least two descriptors
    succeeds exactly when the key lies between the head and the last
    element. -/
theorem segScan_sorted_iff (key : IDq) (hk : key.wf) :
    ∀ (a : Descriptor) (l : List Descriptor) (hne : l ≠ []),
      a.id.wf → (∀ d ∈ l, d.id.wf) →
      List.Chain' (fun x y : Descriptor => x.id.val ≤ y.id.val) (a :: l) →
      (segScan key (a :: l) = true ↔
        (a.id.val ≤ key.val ∧ key.val ≤ (l.getLast hne).id.val)) := by
  intro a l
  induction l generalizing a with
  | nil => intro hne; exact absurd rfl hne
  | cons b m ih =>
    intro _hne ha hwf hch
    have hab : a.id.val ≤ b.id.val := (List.chain'_cons.mp hch).1
    have hbwf : b.id.wf := hwf b (List.mem_cons_self b m)
    have hseg := segInRange_iff a.id b.id key ha hbwf hk hab
    cases m with
    | nil =>
      show (segInRange a.id b.id key || segScan key [b]) = true ↔ _
      have : segScan key [b] = false := rfl
      rw [this, Bool.or_false, List.getLast_singleton]
      exact hseg
    | cons c m' =>
      have hch' := (List.chain'_cons.mp hch).2
      have hwf' : ∀ d ∈ c :: m', d.id.wf := fun d hd =>
        hwf d (List.mem_cons_of_mem b hd)
      have hIH := ih b (List.cons_ne_nil c m') hbwf hwf' hch'
      have hblast : b.id.val ≤ ((c :: m').getLast (List.cons_ne_nil c m')).id.val := by
        have := chain_head_le_getLast b (c :: m') hch'
        rwa [List.getLast_cons (List.cons_ne_nil c m')] at this
      show (segInRange a.id b.id key || segScan key (b :: c :: m')) = true ↔ _
      rw [Bool.or_eq_true, hseg, hIH, List.getLast_cons (List.cons_ne_nil c m')]
      constructor
      · rintro (⟨h1, h2⟩ | ⟨h1, h2⟩)
        · exact ⟨h1, le_trans h2 hblast⟩
        · exact ⟨le_trans hab h1, h2⟩
      · rintro ⟨h1, h2⟩
        by_cases hkb : key.val ≤ b.id.val
        · exact Or.inl ⟨h1, hkb⟩
        · exact Or.inr ⟨le_of_not_le hkb, h2⟩

/-- On a ≤-chained nonempty list of well-formed descriptors the foldr-min
    of the values is the head's value. -/
theorem minIdVal_head (l : List Descriptor) (hne : l ≠ [])
    (hwf : ∀ d ∈ l, d.id.wf)
    (hch : List.Chain' (fun a b : Descriptor => a.id.val ≤ b.id.val) l) :
    minIdVal l = (l.head hne).id.val := by
  induction l with
  | nil => exact absurd rfl hne
  | cons d m ih =>
    cases m with
    | nil =>
      simp only [minIdVal, List.map_cons, List.map_nil, List.foldr_cons, List.foldr_nil,
        List.head_cons]
      exact min_eq_left (le_of_lt (IDq.val_lt_two128 _ (hwf d (List.mem_cons_self d []))))
    | cons e m' =>
      have hde : d.id.val ≤ e.id.val := (List.chain'_cons.mp hch).1
      have ht := ih (List.cons_ne_nil e m')
        (fun x hx => hwf x (List.mem_cons_of_mem d hx)) (List.chain'_cons.mp hch).2
      simp only [minIdVal, List.map_cons, List.foldr_cons, List.head_cons] at ht ⊢
      rw [ht]
      exact min_eq_left hde

/-- On a ≤-chained nonempty list the foldr-max of the values is the last
    element's value. -/
theorem maxIdVal_getLast (l : List Descriptor) (hne : l ≠ [])
    (hch : List.Chain' (fun a b : Descriptor => a.id.val ≤ b.id.val) l) :
    maxIdVal l = (l.getLast hne).id.val := by
  induction l with
  | nil => exact absurd rfl hne
  | cons d m ih =>
    cases m with
    | nil =>
      simp only [maxIdVal, List.map_cons, List.map_nil, List.foldr_cons, List.foldr_nil,
        List.getLast_singleton]
      exact max_eq_left (Nat.zero_le _)
    | cons e m' =>
      have hch' := (List.chain'_cons.mp hch).2
      have ht := ih (List.cons_ne_nil e m') hch'
      have hlast : d.id.val ≤ ((e :: m').getLast (List.cons_ne_nil e m')).id.val := by
        have h1 := chain_head_le_getLast d (e :: m') hch
        rwa [List.getLast_cons (List.cons_ne_nil e m')] at h1
      simp only [maxIdVal, List.map_cons, List.foldr_cons] at ht ⊢
      rw [ht, List.getLast_cons (List.cons_ne_nil e m')]
      exact max_eq_right hlast

/-- C2: for states whose leaf sets satisfy the DescriptorSet ordering and
    invariant I1 (with positive capacities), the segment-pair scan of
    inLeafRange coincides with the spec's linear characterisation: true
    when either leaf set is not full, else
    min(predecessors).id ≤ key ≤ max(successors).id. -/
theorem c2_inLeafRange_linear_refinement (s : StateL) (key : IDq)
    (hk : key.wf) (hnode : s.node.id.wf)
    (hwp : ∀ d ∈ s.predecessors.descriptors, d.id.wf)
    (hws : ∀ d ∈ s.successors.descriptors, d.id.wf)
    (hchp : List.Chain' (fun a b : Descriptor => a.id.val ≤ b.id.val)
      s.predecessors.descriptors)
    (hchs : List.Chain' (fun a b : Descriptor => a.id.val ≤ b.id.val)
      s.successors.descriptors)
    (hI1p : ∀ d ∈ s.predecessors.descriptors, d.id.val < s.node.id.val)
    (hI1s : ∀ d ∈ s.successors.descriptors, s.node.id.val < d.id.val)
    (hp0 : 0 < s.predecessors.size) (hs0 : 0 < s.successors.size) :
    inLeafRange s key = inLeafRangeLinear s key := by
  unfold inLeafRange inLeafRangeLinear
  by_cases hf : ¬s.predecessors.isFull = true ∨ ¬s.successors.isFull = true
  · rw [if_pos hf, if_pos hf]
  · rw [if_neg hf, if_neg hf]
    push_neg at hf
    have hpne : s.predecessors.descriptors ≠ [] := by
      intro he
      have := hf.1
      simp only [DescriptorSet.isFull, he, List.length_nil, decide_eq_true_eq] at this
      omega
    have hsne : s.successors.descriptors ≠ [] := by
      intro he
      have := hf.2
      simp only [DescriptorSet.isFull, he, List.length_nil, decide_eq_true_eq] at this
      omega
    -- the combined list is ≤-chained
    have hchain : List.Chain' (fun a b : Descriptor => a.id.val ≤ b.id.val)
        (s.predecessors.descriptors ++ [s.node] ++ s.successors.descriptors) := by
      rw [List.chain'_append]
      refine ⟨?_, hchs, ?_⟩
      · rw [List.chain'_append]
        refine ⟨hchp, List.chain'_singleton s.node, ?_⟩
        intro x hx y hy
        simp only [List.head?_cons, Option.mem_def, Option.some.injEq] at hy
        subst hy
        exact le_of_lt (hI1p x (List.mem_of_mem_getLast? hx))
      · intro x hx y hy
        rw [List.getLast?_concat] at hx
        simp only [Option.mem_def, Option.some.injEq] at hx
        subst hx
        exact le_of_lt (hI1s y (List.mem_of_mem_head? hy))
    rcases hP : s.predecessors.descriptors with _ | ⟨p0, P'⟩
    · exact absurd hP hpne
    have hlist : s.predecessors.descriptors ++ [s.node] ++ s.successors.descriptors
        = p0 :: (P' ++ [s.node] ++ s.successors.descriptors) := by
      rw [hP]; simp
    have htailne : P' ++ [s.node] ++ s.successors.descriptors ≠ [] := by simp
    have hwfall : ∀ d ∈ P' ++ [s.node] ++ s.successors.descriptors, d.id.wf := by
      intro d hd
      rcases List.mem_append.mp hd with hd | hd
      · rcases List.mem_append.mp hd with hd | hd
        · exact hwp d (hP ▸ List.mem_cons_of_mem p0 hd)
        · rw [List.mem_singleton] at hd; subst hd; exact hnode
      · exact hws d hd
    have hchain' : List.Chain' (fun a b : Descriptor => a.id.val ≤ b.id.val)
        (p0 :: (P' ++ [s.node] ++ s.successors.descriptors)) := by
      rw [← hlist]; exact hchain
    have hscan := segScan_sorted_iff key hk p0
      (P' ++ [s.node] ++ s.successors.descriptors) htailne
      (hwp p0 (hP ▸ List.mem_cons_self p0 P')) hwfall hchain'
    have hgl : ((P' ++ [s.node] ++ s.successors.descriptors).getLast htailne)
        = s.successors.descriptors.getLast hsne := by
      have h1 : (P' ++ [s.node] ++ s.successors.descriptors).getLast?
          = s.successors.descriptors.getLast? := by
        rw [List.append_assoc, List.getLast?_append_of_ne_nil _ (by simp [hsne]),
          List.getLast?_append_of_ne_nil _ hsne]
      rw [List.getLast?_eq_getLast _ htailne, List.getLast?_eq_getLast _ hsne] at h1
      exact Option.some.inj h1
    have hmin := minIdVal_head (p0 :: P') (List.cons_ne_nil p0 P') (hP ▸ hwp) (hP ▸ hchp)
    rw [List.head_cons] at hmin
    have hmax := maxIdVal_getLast s.successors.descriptors hsne hchs
    simp only [List.cons_append]
    rw [Bool.eq_iff_iff, hscan, hgl, decide_eq_true_eq, hmin, hmax]

/-- Witness for C2 at a concrete full state: node 0x30, predecessors
    [0x20], successors [0x40], key 0x25 inside the leaf range. -/
theorem c2_witness :
    inLeafRange c3state ⟨0, 0x25⟩ = inLeafRangeLinear c3state ⟨0, 0x25⟩ :=
  c2_inLeafRange_linear_refinement c3state ⟨0, 0x25⟩ (by decide) (by decide)
    (by decide) (by decide) (List.chain'_singleton _) (List.chain'_singleton _)
    (by decide) (by decide) (by decide) (by decide)

/-! ## Claim C10 — mixinRoutes row index in bounds -/

/-- The value of a right shift is division by the corresponding power of
    two (Go's zeroing shifts are faithful to this on well-formed values). -/
theorem shr_val (v : IDq) (hv : v.wf) (n : Nat) : (shr v n).val = v.val / 2 ^ n := by
  obtain ⟨h1, h2⟩ := hv
  simp only [two64] at h1 h2
  unfold shr
  split <;> rename_i hn
  · simp only [IDq.val, two64, Nat.shiftRight_eq_div_pow, Nat.zero_mul, Nat.zero_add]
    have hsplit : (2 : Nat) ^ n = 2 ^ 64 * 2 ^ (n - 64) := by
      rw [← pow_add]
      congr 1
      omega
    rw [hsplit, ← Nat.div_div_eq_div_mul]
    congr 1
    omega
  · push_neg at hn
    simp only [IDq.val, two64, Nat.shiftRight_eq_div_pow, Nat.shiftLeft_eq]
    have hmod : v.high * 2 ^ (64 - n) % 2 ^ 64 = v.high % 2 ^ n * 2 ^ (64 - n) := by
      have hp : (2 : Nat) ^ 64 = 2 ^ n * 2 ^ (64 - n) := by
        rw [← pow_add]
        congr 1
        omega
      rw [hp, Nat.mul_mod_mul_right]
    rw [hmod]
    have hor : v.low / 2 ^ n ||| v.high % 2 ^ n * 2 ^ (64 - n)
        = v.high % 2 ^ n * 2 ^ (64 - n) + v.low / 2 ^ n := by
      have hlt : v.low / 2 ^ n < 2 ^ (64 - n) := by
        apply Nat.div_lt_of_lt_mul
        calc v.low < 2 ^ 64 := h2
          _ = 2 ^ n * 2 ^ (64 - n) := by rw [← pow_add]; congr 1; omega
      rw [Nat.lor_comm,
        show v.high % 2 ^ n * 2 ^ (64 - n) = 2 ^ (64 - n) * (v.high % 2 ^ n) from by ring]
      exact (Nat.mul_add_lt_is_or hlt _).symm
    rw [hor]
    have e2 : v.high * 2 ^ 64 + v.low
        = 2 ^ n * (v.high / 2 ^ n * 2 ^ 64 + (v.high % 2 ^ n * 2 ^ (64 - n) + v.low / 2 ^ n))
          + v.low % 2 ^ n := by
      have hp : (2 : Nat) ^ n * 2 ^ (64 - n) = 2 ^ 64 := by
        rw [← pow_add]
        congr 1
        omega
      calc v.high * 2 ^ 64 + v.low
          = (2 ^ n * (v.high / 2 ^ n) + v.high % 2 ^ n) * 2 ^ 64
            + (2 ^ n * (v.low / 2 ^ n) + v.low % 2 ^ n) := by
            rw [Nat.div_add_mod, Nat.div_add_mod]
        _ = 2 ^ n * (v.high / 2 ^ n * 2 ^ 64
              + (v.high % 2 ^ n * 2 ^ (64 - n) + v.low / 2 ^ n)) + v.low % 2 ^ n := by
            rw [← hp]
            ring
    rw [e2, Nat.mul_add_div (by positivity), Nat.div_eq_of_lt (Nat.mod_lt _ (by positivity)),
      Nat.add_zero]

/-- Extracting a masked digit of a shifted ID equals the arithmetic digit of
    the value. -/
theorem and64_shr_low (v : IDq) (hv : v.wf) (k e : Nat) (he : e ≤ 64) :
    (and64 (shr v k) (2 ^ e - 1)).low = v.val / 2 ^ k % 2 ^ e := by
  unfold and64
  simp only
  rw [Nat.and_pow_two_sub_one_eq_mod]
  have hval : (shr v k).val % 2 ^ e = (shr v k).low % 2 ^ e := by
    simp only [IDq.val, two64]
    have hp : (2 : Nat) ^ 64 = 2 ^ e * 2 ^ (64 - e) := by
      rw [← pow_add]
      congr 1
      omega
    rw [hp, show (shr v k).high * (2 ^ e * 2 ^ (64 - e))
        = 2 ^ e * ((shr v k).high * 2 ^ (64 - e)) from by ring, Nat.mul_add_mod]
  rw [← hval, shr_val v hv k]

/-- Base-b recomposition of the MSB-first digits of a value below b^k. -/
theorem recompDigits (b : Nat) (hb : 1 < b) :
    ∀ (k : Nat) (v : Nat), v < b ^ k →
      (Finset.range k).sum (fun i => v / b ^ (k - (i + 1)) % b * b ^ (k - (i + 1))) = v := by
  intro k
  induction k with
  | zero =>
    intro v hv
    simp only [pow_zero] at hv
    interval_cases v
    simp
  | succ k ih =>
    intro v hv
    rw [Finset.sum_range_succ]
    have hf : ∀ i ∈ Finset.range k,
        v / b ^ (k + 1 - (i + 1)) % b * b ^ (k + 1 - (i + 1))
          = v / b / b ^ (k - (i + 1)) % b * b ^ (k - (i + 1)) * b := by
      intro i hi
      rw [Finset.mem_range] at hi
      have h1 : k + 1 - (i + 1) = k - (i + 1) + 1 := by omega
      rw [h1, pow_succ', ← Nat.div_div_eq_div_mul]
      ring
    rw [Finset.sum_congr rfl hf, ← Finset.sum_mul]
    have hvb : v / b < b ^ k := by
      rw [Nat.div_lt_iff_lt_mul (by omega)]
      calc v < b ^ (k + 1) := hv
        _ = b ^ k * b := by rw [pow_succ]
    rw [ih (v / b) hvb]
    simp only [Nat.sub_self, pow_zero, Nat.div_one, Nat.mul_one]
    rw [Nat.mul_comm]
    exact Nat.div_add_mod v b

/-- Two values below b^k with the same MSB-first digit sequences are equal. -/
theorem digits_val_inj (b : Nat) (hb : 1 < b) (k : Nat) (v w : Nat)
    (hv : v < b ^ k) (hw : w < b ^ k)
    (h : ∀ i < k, v / b ^ (k - (i + 1)) % b = w / b ^ (k - (i + 1)) % b) : v = w := by
  rw [← recompDigits b hb k v hv, ← recompDigits b hb k w hw]
  exact Finset.sum_congr rfl fun i hi => by rw [h i (Finset.mem_range.mp hi)]

theorem prefixLenN_le (a : List Nat) : ∀ b, prefixLenN a b ≤ a.length := by
  induction a with
  | nil => intro b; cases b <;> simp [prefixLenN]
  | cons x xs ih =>
    intro b
    cases b with
    | nil => simp [prefixLenN]
    | cons y ys =>
      simp only [prefixLenN, List.length_cons]
      split
      · exact Nat.succ_le_succ (ih ys)
      · omega

theorem prefixLenN_eq_length_iff (a : List Nat) :
    ∀ b, a.length = b.length → (prefixLenN a b = a.length ↔ a = b) := by
  induction a with
  | nil =>
    intro b hlen
    cases b with
    | nil => simp [prefixLenN]
    | cons y ys => simp at hlen
  | cons x xs ih =>
    intro b hlen
    cases b with
    | nil => simp at hlen
    | cons y ys =>
      simp only [List.length_cons] at hlen
      simp only [prefixLenN, List.length_cons, List.cons.injEq]
      split <;> rename_i hxy
      · rw [Nat.succ_inj]
        rw [ih ys (by omega)]
        simp [hxy]
      · constructor
        · omega
        · rintro ⟨h1, _⟩
          exact absurd h1 hxy

/-- The well-formed digit decomposition: length and injectivity, under the
    arithmetic side conditions of a valid (size, base) pair. -/
theorem idDigits_spec (size base : Nat) (v w : IDq) (hv : v.wf) (hw : w.wf)
    (hvm : v.val ≤ (maxForSize size).val) (hwm : w.val ≤ (maxForSize size).val)
    (hmwf : (maxForSize size).wf)
    (hdiv : size + log2c base - 1 - (size + log2c base - 1) % log2c base
      = log2c base * digitsCount size base)
    (hge : size ≤ log2c base * digitsCount size base)
    (hexp64 : log2c base ≤ 64) (hexp1 : 1 ≤ log2c base)
    (hmaxval : (maxForSize size).val = 2 ^ size - 1) :
    (idDigits v size base).length = digitsCount size base ∧
      (idDigits v size base = idDigits w size base ↔ v = w) := by
  have hguard : ∀ u : IDq, u.wf → u.val ≤ (maxForSize size).val →
      ¬0 < cmpID u (maxForSize size) := by
    intro u hu hum
    rw [cmpID_pos_iff u (maxForSize size) hu hmwf]
    omega
  have hvlt : v.val < (2 ^ log2c base) ^ digitsCount size base := by
    rw [← pow_mul]
    calc v.val ≤ (maxForSize size).val := hvm
      _ = 2 ^ size - 1 := hmaxval
      _ < 2 ^ size := by have : 0 < (2:Nat) ^ size := by positivity
                         omega
      _ ≤ 2 ^ (log2c base * digitsCount size base) :=
        Nat.pow_le_pow_right (by norm_num) hge
  have hwlt : w.val < (2 ^ log2c base) ^ digitsCount size base := by
    rw [← pow_mul]
    calc w.val ≤ (maxForSize size).val := hwm
      _ = 2 ^ size - 1 := hmaxval
      _ < 2 ^ size := by have : 0 < (2:Nat) ^ size := by positivity
                         omega
      _ ≤ 2 ^ (log2c base * digitsCount size base) :=
        Nat.pow_le_pow_right (by norm_num) hge
  have hdigit : ∀ (u : IDq), u.wf → ∀ i, i < digitsCount size base →
      (and64 (shr u (size + log2c base - 1 - (size + log2c base - 1) % log2c base
        - log2c base * (i + 1))) (2 ^ log2c base - 1)).low
      = u.val / (2 ^ log2c base) ^ (digitsCount size base - (i + 1)) % 2 ^ log2c base := by
    intro u hu i hi
    rw [and64_shr_low u hu _ _ hexp64, hdiv,
      show log2c base * digitsCount size base - log2c base * (i + 1)
        = log2c base * (digitsCount size base - (i + 1)) from by
          rw [Nat.mul_sub],
      pow_mul]
  have hunfold : ∀ (u : IDq), u.wf → u.val ≤ (maxForSize size).val →
      idDigits u size base = (List.range (digitsCount size base)).map fun i =>
        (and64 (shr u (size + log2c base - 1 - (size + log2c base - 1) % log2c base
          - log2c base * (i + 1))) (2 ^ log2c base - 1)).low := by
    intro u hu hum
    unfold idDigits
    rw [if_neg (hguard u hu hum)]
    rfl
  constructor
  · rw [hunfold v hv hvm, List.length_map, List.length_range]
  · constructor
    · intro heq
      rw [hunfold v hv hvm, hunfold w hw hwm] at heq
      have hpt := List.map_inj_left.mp heq
      apply IDq.val_inj hv hw
      apply digits_val_inj (2 ^ log2c base)
        (by have : 0 < log2c base := hexp1
            calc 1 < 2 ^ 1 := by norm_num
              _ ≤ 2 ^ log2c base := Nat.pow_le_pow_right (by norm_num) hexp1)
        (digitsCount size base) _ _ hvlt hwlt
      intro i hi
      have h1 := hdigit v hv i hi
      have h2 := hdigit w hw i hi
      have h3 := hpt i (List.mem_range.mpr hi)
      rw [h1, h2] at h3
      exact h3
    · intro heq
      rw [heq]

/-- C10: for states with matching size and base (from the allowed sets) and
    in-range node ids, the shared-prefix row index of mixinRoutes is
    strictly below the routing-table row count exactly when the node ids
    differ; with equal node ids it equals the row count (and the row access
    would be out of bounds), so the inequality of ids is a necessary
    precondition. -/
theorem c10_mixinRoutes_row_in_bounds (s peer : StateL)
    (hsz : peer.size = s.size) (hbs : peer.base = s.base)
    (hsize : s.size = 8 ∨ s.size = 16 ∨ s.size = 32 ∨ s.size = 64 ∨ s.size = 128)
    (hbase : s.base = 2 ∨ s.base = 4 ∨ s.base = 8 ∨ s.base = 16)
    (hv : s.node.id.wf) (hw : peer.node.id.wf)
    (hvm : s.node.id.val ≤ (maxForSize s.size).val)
    (hwm : peer.node.id.val ≤ (maxForSize s.size).val) :
    (s.node.id ≠ peer.node.id →
      mixinOverlap s peer < (digitsCount s.size s.base : Int)) ∧
    (s.node.id = peer.node.id →
      mixinOverlap s peer = (digitsCount s.size s.base : Int)) := by
  have hspec := idDigits_spec s.size s.base s.node.id peer.node.id hv hw hvm hwm
  have hside : (maxForSize s.size).wf ∧
      (s.size + log2c s.base - 1 - (s.size + log2c s.base - 1) % log2c s.base
        = log2c s.base * digitsCount s.size s.base) ∧
      s.size ≤ log2c s.base * digitsCount s.size s.base ∧
      log2c s.base ≤ 64 ∧ 1 ≤ log2c s.base ∧
      (maxForSize s.size).val = 2 ^ s.size - 1 := by
    rcases hsize with h | h | h | h | h <;> rcases hbase with hb | hb | hb | hb <;>
      rw [h, hb] <;>
      exact ⟨by decide, by decide, by decide, by decide, by decide, by decide⟩
  obtain ⟨hs1, hs2, hs3, hs4, hs5, hs6⟩ := hside
  obtain ⟨hlen, hiff⟩ := hspec hs1 hs2 hs3 hs4 hs5 hs6
  have hlenw : (idDigits peer.node.id s.size s.base).length = digitsCount s.size s.base := by
    obtain ⟨hlw, _⟩ := idDigits_spec s.size s.base peer.node.id s.node.id hw hv hwm hvm
      hs1 hs2 hs3 hs4 hs5 hs6
    exact hlw
  have hlen_eq : (idDigits s.node.id s.size s.base).length
      = (idDigits peer.node.id s.size s.base).length := by rw [hlen, hlenw]
  constructor
  · intro hne
    have hdne : idDigits s.node.id s.size s.base ≠ idDigits peer.node.id s.size s.base := by
      intro h
      exact hne (hiff.mp h)
    unfold mixinOverlap prefixLen
    rw [if_neg (by omega)]
    have hle := prefixLenN_le (idDigits s.node.id s.size s.base)
      (idDigits peer.node.id s.size s.base)
    have hneq := (prefixLenN_eq_length_iff (idDigits s.node.id s.size s.base)
      (idDigits peer.node.id s.size s.base) hlen_eq)
    rw [hlen] at hle
    have : prefixLenN (idDigits s.node.id s.size s.base)
        (idDigits peer.node.id s.size s.base) ≠ digitsCount s.size s.base := by
      intro h
      rw [← hlen] at h
      exact hdne (hneq.mp h)
    omega
  · intro heq
    have hdeq : idDigits s.node.id s.size s.base = idDigits peer.node.id s.size s.base :=
      hiff.mpr heq
    unfold mixinOverlap prefixLen
    rw [if_neg (by omega)]
    have := (prefixLenN_eq_length_iff (idDigits s.node.id s.size s.base)
      (idDigits peer.node.id s.size s.base) hlen_eq).mpr hdeq
    rw [hlen] at this
    omega

/-- Witness for C10 at the concrete pair (`c1state`, `c3state`), both of
    size 8, base 16, with distinct node ids 0 and 0x30: the mixinRoutes row
    index stays below the 2 routing rows. -/
theorem c10_witness :
    mixinOverlap c1state c3state < (digitsCount c1state.size c1state.base : Int) :=
  (c10_mixinRoutes_row_in_bounds c1state c3state (by decide) (by decide) (by decide)
    (by decide) (by decide) (by decide) (by decide) (by decide)).1 (by decide)

/-! ## Claim C8 — DescriptorSet bound and eviction -/

/-- Binary-search specification of sort.Search: on a range where f is
    monotone, everything below the result is false and everything from the
    result on is true. -/
theorem sortSearchGo_spec (f : Nat → Bool) :
    ∀ (n i j : Nat), j - i = n → i ≤ j →
      (∀ a b, i ≤ a → a ≤ b → b < j → f a = true → f b = true) →
      i ≤ sortSearchGo f i j ∧ sortSearchGo f i j ≤ j ∧
        (∀ k, i ≤ k → k < sortSearchGo f i j → f k = false) ∧
        (∀ k, sortSearchGo f i j ≤ k → k < j → f k = true) := by
  intro n
  induction n using Nat.strong_induction_on with
  | _ n ih =>
    intro i j hn hij hmono
    rw [sortSearchGo]
    split
    · rename_i hlt
      by_cases hm : f ((i + j) / 2) = true
      · rw [if_pos hm]
        obtain ⟨r1, r2, r3, r4⟩ := ih ((i + j) / 2 - i) (by omega) i ((i + j) / 2) rfl
          (by omega) (fun a b ha hab hb hfa => hmono a b ha hab (by omega) hfa)
        refine ⟨r1, by omega, r3, ?_⟩
        intro k hk1 hk2
        by_cases hkm : k < (i + j) / 2
        · exact r4 k hk1 hkm
        · exact hmono ((i + j) / 2) k (by omega) (by omega) hk2 hm
      · rw [if_neg hm]
        obtain ⟨r1, r2, r3, r4⟩ := ih (j - ((i + j) / 2 + 1)) (by omega) ((i + j) / 2 + 1) j
          rfl (by omega) (fun a b ha hab hb hfa => hmono a b (by omega) hab hb hfa)
        refine ⟨by omega, r2, ?_, r4⟩
        intro k hk1 hk2
        by_cases hkm : (i + j) / 2 + 1 ≤ k
        · exact r3 k hkm hk2
        · rcases Bool.eq_false_or_eq_true (f k) with hfk | hfk
          · exact absurd (hmono k ((i + j) / 2) hk1 (by omega) (by omega) hfk) hm
          · exact hfk
    · rename_i hge
      exact ⟨le_refl i, by omega, fun k hk1 hk2 => by omega, fun k hk1 hk2 => by omega⟩

/-- The trimming loop always returns a list within the capacity bound. -/
theorem trimToSize_length_le (kb : Bool) (sz : Nat) :
    ∀ (n : Nat) (l : List Descriptor), l.length = n → (trimToSize kb sz l).length ≤ sz := by
  intro n
  induction n using Nat.strong_induction_on with
  | _ n ih =>
    intro l hl
    rw [trimToSize]
    split
    · rename_i hgt
      have hlp : 0 < l.length := by omega
      cases kb with
      | true =>
        rw [if_pos rfl]
        exact ih (l.length - 1) (by omega) l.tail (by simp)
      | false =>
        rw [if_neg (by simp)]
        exact ih (l.length - 1) (by omega) l.dropLast (by simp)
    · rename_i hle
      omega

/-- Trimming a list one over capacity drops exactly one element from the
    policy end. -/
theorem trimToSize_succ (kb : Bool) (sz : Nat) (l : List Descriptor)
    (hl : l.length = sz + 1) :
    trimToSize kb sz l = if kb then l.tail else l.dropLast := by
  rw [trimToSize, dif_pos (by omega)]
  have hlen : (if kb then l.tail else l.dropLast).length = sz := by
    cases kb <;> simp [List.length_tail, List.length_dropLast, hl]
  rw [trimToSize, dif_neg (by omega)]

/-- Inject keeps the capacity bound (both the no-op and trimming paths). -/
theorem inject_length_le (dset : DescriptorSet) (d : Descriptor) (ins : Bool)
    (h : dset.descriptors.length ≤ dset.size) :
    ((dset.inject d ins).1).descriptors.length ≤ dset.size := by
  simp only [DescriptorSet.inject]
  split
  · exact h
  · split
    · exact h
    · exact trimToSize_length_le dset.keepBiggest dset.size _ _ rfl

/-- Inject never alters the capacity or policy fields. -/
theorem inject_fields (dset : DescriptorSet) (d : Descriptor) (ins : Bool) :
    ((dset.inject d ins).1).size = dset.size ∧
      ((dset.inject d ins).1).keepBiggest = dset.keepBiggest := by
  simp only [DescriptorSet.inject]
  split
  · exact ⟨rfl, rfl⟩
  · split
    · exact ⟨rfl, rfl⟩
    · exact ⟨rfl, rfl⟩

/-- Remove keeps the capacity bound and the fields. -/
theorem removeD_spec (dset : DescriptorSet) (d : Descriptor)
    (h : dset.descriptors.length ≤ dset.size) :
    ((dset.removeD d).1).descriptors.length ≤ dset.size ∧
      ((dset.removeD d).1).size = dset.size := by
  simp only [DescriptorSet.removeD]
  split
  · exact ⟨h, rfl⟩
  · refine ⟨?_, rfl⟩
    simp only [List.length_append, List.length_take, List.length_drop]
    omega

/-- Applying one operation keeps the bound and the capacity. -/
theorem applyOp_bound (dset : DescriptorSet) (op : DSetOp)
    (h : dset.descriptors.length ≤ dset.size) :
    (applyOp dset op).descriptors.length ≤ (applyOp dset op).size ∧
      (applyOp dset op).size = dset.size := by
  cases op with
  | push d =>
    simp only [applyOp, DescriptorSet.push]
    have h1 := inject_length_le dset d false h
    have h2 := (inject_fields dset d false).1
    rw [h2]
    exact ⟨h1, rfl⟩
  | insert d =>
    simp only [applyOp, DescriptorSet.insert]
    have h1 := inject_length_le dset d true h
    have h2 := (inject_fields dset d true).1
    rw [h2]
    exact ⟨h1, rfl⟩
  | remove d =>
    simp only [applyOp]
    have h1 := removeD_spec dset d h
    rw [h1.2]
    exact ⟨h1.1, rfl⟩

/-- Applying any sequence of operations keeps at most `size` elements. -/
theorem applyOps_bound (ops : List DSetOp) :
    ∀ dset : DescriptorSet, dset.descriptors.length ≤ dset.size →
      (applyOps dset ops).descriptors.length ≤ dset.size := by
  induction ops with
  | nil => intro dset h; exact h
  | cons op ops ih =>
    intro dset h
    obtain ⟨h1, h2⟩ := applyOp_bound dset op h
    have hrec := ih (applyOp dset op) h1
    rw [h2] at hrec
    exact hrec

/-- indexOf on a ≤-chained list of well-formed descriptors returns the least
    position whose id is at least d's. -/
theorem indexOf_spec (dset : DescriptorSet) (d : Descriptor)
    (hwl : ∀ x ∈ dset.descriptors, x.id.wf) (hwd : d.id.wf)
    (hch : List.Chain' (fun a b : Descriptor => a.id.val ≤ b.id.val) dset.descriptors) :
    dset.indexOf d ≤ dset.descriptors.length ∧
      (∀ k (hk : k < dset.descriptors.length), k < dset.indexOf d →
        (dset.descriptors.get ⟨k, hk⟩).id.val < d.id.val) ∧
      (∀ k (hk : k < dset.descriptors.length), dset.indexOf d ≤ k →
        d.id.val ≤ (dset.descriptors.get ⟨k, hk⟩).id.val) := by
  haveI : IsTrans Descriptor (fun a b : Descriptor => a.id.val ≤ b.id.val) :=
    ⟨fun _ _ _ hab hbc => le_trans hab hbc⟩
  have hpair : List.Pairwise (fun a b : Descriptor => a.id.val ≤ b.id.val)
      dset.descriptors := List.chain'_iff_pairwise.mp hch
  have hf : ∀ k (hk : k < dset.descriptors.length),
      (defaultSearch (dset.descriptors.getD k zeroDesc) d = true
        ↔ d.id.val ≤ (dset.descriptors.get ⟨k, hk⟩).id.val) := by
    intro k hk
    rw [List.getD_eq_getElem _ _ hk]
    unfold defaultSearch
    rw [decide_eq_true_iff]
    exact cmpID_nonneg_iff _ _ (hwl _ (List.get_mem _ k hk)) hwd
  have hmono : ∀ a b, 0 ≤ a → a ≤ b → b < dset.descriptors.length →
      defaultSearch (dset.descriptors.getD a zeroDesc) d = true →
      defaultSearch (dset.descriptors.getD b zeroDesc) d = true := by
    intro a b _ hab hb hfa
    have ha : a < dset.descriptors.length := lt_of_le_of_lt hab hb
    rw [hf a ha] at hfa
    rw [hf b hb]
    rcases eq_or_lt_of_le hab with rfl | hlt
    · exact hfa
    · exact le_trans hfa (List.pairwise_iff_get.mp hpair ⟨a, ha⟩ ⟨b, hb⟩ hlt)
  unfold DescriptorSet.indexOf
  obtain ⟨_r1, r2, r3, r4⟩ := sortSearchGo_spec
    (fun k => defaultSearch (dset.descriptors.getD k zeroDesc) d)
    dset.descriptors.length 0 dset.descriptors.length rfl (Nat.zero_le _) hmono
  refine ⟨r2, ?_, ?_⟩
  · intro k hk hki
    have h0 := r3 k (Nat.zero_le _) hki
    have hneg : ¬(d.id.val ≤ (dset.descriptors.get ⟨k, hk⟩).id.val) := by
      rw [← hf k hk, h0]
      simp
    omega
  · intro k hk hki
    have h0 := r4 k hki hk
    rw [hf k hk] at h0
    exact h0

/-- Dropping the last element of a duplicate-free list is erasing it. -/
theorem dropLast_eq_erase_getLast :
    ∀ (l : List Descriptor) (h : l ≠ []), l.Nodup → l.dropLast = l.erase (l.getLast h) := by
  intro l
  induction l with
  | nil => intro h; exact absurd rfl h
  | cons x t ih =>
    intro _h hnd
    cases t with
    | nil => simp
    | cons y t' =>
      have hg : (x :: y :: t').getLast (by simp) = (y :: t').getLast (by simp) :=
        List.getLast_cons (by simp)
      have hxg : ¬x = (y :: t').getLast (by simp) := by
        intro he
        have hmem : (y :: t').getLast (by simp) ∈ y :: t' := List.getLast_mem _
        rw [← he] at hmem
        exact (List.nodup_cons.mp hnd).1 hmem
      rw [hg, List.erase_cons_tail (by simp [hxg])]
      have := ih (by simp) (List.nodup_cons.mp hnd).2
      rw [show (x :: y :: t').dropLast = x :: (y :: t').dropLast from rfl, this]

/-- Inserting a fresh descriptor into a full, strictly ordered set evicts
    exactly one element: the minimum of the combined collection when
    keepBiggest is set, the maximum otherwise; the remainder is the
    combined collection without it. -/
theorem insert_full_evicts (dset : DescriptorSet) (d : Descriptor)
    (hwl : ∀ x ∈ dset.descriptors, x.id.wf) (hwd : d.id.wf)
    (hch : List.Chain' (fun a b : Descriptor => a.id.val < b.id.val) dset.descriptors)
    (hfresh : ∀ x ∈ dset.descriptors, x.id.val ≠ d.id.val)
    (hful : dset.descriptors.length = dset.size) (hsz : 0 < dset.size) :
    ∃ evicted, evicted ∈ d :: dset.descriptors ∧
      (dset.keepBiggest = true → ∀ x ∈ d :: dset.descriptors,
        evicted.id.val ≤ x.id.val) ∧
      (dset.keepBiggest = false → ∀ x ∈ d :: dset.descriptors,
        x.id.val ≤ evicted.id.val) ∧
      ((dset.insert d).1).descriptors.length = dset.size ∧
      List.Perm (((dset.insert d).1).descriptors)
        ((d :: dset.descriptors).erase evicted) := by
  have hchle : List.Chain' (fun a b : Descriptor => a.id.val ≤ b.id.val)
      dset.descriptors := List.Chain'.imp (fun _ _ h => le_of_lt h) hch
  obtain ⟨hi_le, hlow, hhigh⟩ := indexOf_spec dset d hwl hwd hchle
  have hcheck : ¬(dset.indexOf d ≠ dset.descriptors.length ∧
      dset.descriptors.getD (dset.indexOf d) zeroDesc = d) := by
    rintro ⟨hne, heq⟩
    have hk : dset.indexOf d < dset.descriptors.length := lt_of_le_of_ne hi_le hne
    rw [List.getD_eq_getElem _ _ hk] at heq
    have hmem := List.get_mem dset.descriptors (dset.indexOf d) hk
    have hne2 := hfresh _ hmem
    have heq2 : dset.descriptors.get ⟨dset.indexOf d, hk⟩ = d := heq
    rw [heq2] at hne2
    exact hne2 rfl
  have hinj : ((dset.insert d).1).descriptors
      = trimToSize dset.keepBiggest dset.size
        (dset.descriptors.take (dset.indexOf d) ++ [d]
          ++ dset.descriptors.drop (dset.indexOf d)) := by
    simp only [DescriptorSet.insert, DescriptorSet.inject]
    rw [if_neg (by simp), if_neg hcheck]
    by_cases hil : dset.indexOf d = dset.descriptors.length
    · rw [if_pos hil, hil, List.take_length, List.drop_length]
      simp
    · rw [if_neg hil]
  have hinjlen : (dset.descriptors.take (dset.indexOf d) ++ [d]
      ++ dset.descriptors.drop (dset.indexOf d)).length = dset.size + 1 := by
    simp only [List.length_append, List.length_take, List.length_drop,
      List.length_singleton]
    omega
  have hres : ((dset.insert d).1).descriptors
      = if dset.keepBiggest
        then (dset.descriptors.take (dset.indexOf d) ++ [d]
          ++ dset.descriptors.drop (dset.indexOf d)).tail
        else (dset.descriptors.take (dset.indexOf d) ++ [d]
          ++ dset.descriptors.drop (dset.indexOf d)).dropLast := by
    rw [hinj, trimToSize_succ _ _ _ hinjlen]
  have hperm : List.Perm (dset.descriptors.take (dset.indexOf d) ++ [d]
      ++ dset.descriptors.drop (dset.indexOf d)) (d :: dset.descriptors) := by
    rw [List.append_assoc, List.singleton_append]
    exact List.perm_middle.trans (by rw [List.take_append_drop])
  have hchinj : List.Chain' (fun a b : Descriptor => a.id.val < b.id.val)
      (dset.descriptors.take (dset.indexOf d) ++ [d]
        ++ dset.descriptors.drop (dset.indexOf d)) := by
    rw [List.append_assoc, List.singleton_append, List.chain'_append]
    refine ⟨List.Chain'.take hch _, ?_, ?_⟩
    · rw [List.chain'_cons']
      refine ⟨?_, List.Chain'.drop hch _⟩
      intro y hy
      rw [List.head?_drop] at hy
      have hk : dset.indexOf d < dset.descriptors.length := by
        by_contra hge
        rw [List.getElem?_eq_none (by omega)] at hy
        exact Option.noConfusion hy
      rw [List.getElem?_eq_getElem hk] at hy
      have hy2 : y = dset.descriptors.get ⟨dset.indexOf d, hk⟩ :=
        (Option.some.inj hy).symm
      subst hy2
      have h1 := hhigh (dset.indexOf d) hk (le_refl _)
      have h2 := hfresh _ (List.get_mem dset.descriptors (dset.indexOf d) hk)
      omega
    · intro x hx y hy
      simp only [List.head?_cons, Option.mem_def, Option.some.injEq] at hy
      subst hy
      rw [List.getLast?_eq_getElem?, List.getElem?_take] at hx
      have hlen_take : (dset.descriptors.take (dset.indexOf d)).length
          = min (dset.indexOf d) dset.descriptors.length := List.length_take _ _
      by_cases hi0 : dset.indexOf d = 0
      · rw [hi0] at hx
        simp at hx
      · have hminpos : 0 < min (dset.indexOf d) dset.descriptors.length := by
          have : 0 < dset.descriptors.length := by omega
          omega
        rw [hlen_take, if_pos (by omega)] at hx
        have hk : min (dset.indexOf d) dset.descriptors.length - 1
            < dset.descriptors.length := by omega
        rw [List.getElem?_eq_getElem hk] at hx
        have hx2 : x = dset.descriptors.get
            ⟨min (dset.indexOf d) dset.descriptors.length - 1, hk⟩ :=
          (Option.some.inj hx).symm
        subst hx2
        exact hlow _ hk (by omega)
  haveI : IsTrans Descriptor (fun a b : Descriptor => a.id.val < b.id.val) :=
    ⟨fun _ _ _ hab hbc => lt_trans hab hbc⟩
  have hpairinj := List.chain'_iff_pairwise.mp hchinj
  have hndinj : (dset.descriptors.take (dset.indexOf d) ++ [d]
      ++ dset.descriptors.drop (dset.indexOf d)).Nodup :=
    hpairinj.imp fun hxy he => by rw [he] at hxy; exact absurd hxy (lt_irrefl _)
  have hinjne : dset.descriptors.take (dset.indexOf d) ++ [d]
      ++ dset.descriptors.drop (dset.indexOf d) ≠ [] := by
    intro h0
    rw [h0] at hinjlen
    simp at hinjlen
  cases hkb : dset.keepBiggest with
  | true =>
    refine ⟨(dset.descriptors.take (dset.indexOf d) ++ [d]
      ++ dset.descriptors.drop (dset.indexOf d)).head hinjne, ?_, ?_, ?_, ?_, ?_⟩
    · exact (hperm.mem_iff).mp (List.head_mem hinjne)
    · intro _ x hx
      have hxin := (hperm.mem_iff).mpr hx
      obtain ⟨h0, t0, hcons⟩ := List.exists_cons_of_ne_nil hinjne
      have h1 : some ((dset.descriptors.take (dset.indexOf d) ++ [d]
          ++ dset.descriptors.drop (dset.indexOf d)).head hinjne) = some h0 := by
        rw [← List.head?_eq_head hinjne, hcons]
        rfl
      have hh := Option.some.inj h1
      rw [hcons] at hxin hpairinj
      rw [hh]
      rcases List.mem_cons.mp hxin with rfl | hxt
      · exact le_refl _
      · exact le_of_lt ((List.pairwise_cons.mp hpairinj).1 x hxt)
    · intro hfalse
      exact absurd hfalse (by simp)
    · rw [hres, hkb, if_pos rfl, List.length_tail, hinjlen]
      omega
    · rw [hres, hkb, if_pos rfl]
      obtain ⟨h0, t0, hcons⟩ := List.exists_cons_of_ne_nil hinjne
      have h1 : some ((dset.descriptors.take (dset.indexOf d) ++ [d]
          ++ dset.descriptors.drop (dset.indexOf d)).head hinjne) = some h0 := by
        rw [← List.head?_eq_head hinjne, hcons]
        rfl
      have hh := Option.some.inj h1
      rw [hh]
      have htail : (dset.descriptors.take (dset.indexOf d) ++ [d]
          ++ dset.descriptors.drop (dset.indexOf d)).tail = t0 := by
        rw [hcons]
        rfl
      rw [htail]
      have herase : (dset.descriptors.take (dset.indexOf d) ++ [d]
          ++ dset.descriptors.drop (dset.indexOf d)).erase h0 = t0 := by
        rw [hcons]
        exact List.erase_cons_head h0 t0
      have hfin := hperm.erase h0
      rw [herase] at hfin
      exact hfin
  | false =>
    refine ⟨(dset.descriptors.take (dset.indexOf d) ++ [d]
      ++ dset.descriptors.drop (dset.indexOf d)).getLast hinjne, ?_, ?_, ?_, ?_, ?_⟩
    · exact (hperm.mem_iff).mp (List.getLast_mem hinjne)
    · intro htrue
      exact absurd htrue (by simp)
    · intro _ x hx
      have hxin := (hperm.mem_iff).mpr hx
      have hdecomp := List.dropLast_append_getLast hinjne
      rw [← hdecomp] at hxin hpairinj
      rw [List.pairwise_append] at hpairinj
      rcases List.mem_append.mp hxin with hxd | hxl
      · exact le_of_lt (hpairinj.2.2 x hxd _ (List.mem_singleton_self _))
      · rw [List.mem_singleton] at hxl
        rw [hxl]
    · rw [hres, hkb, if_neg (by simp), List.length_dropLast, hinjlen]
      omega
    · rw [hres, hkb, if_neg (by simp),
        dropLast_eq_erase_getLast _ hinjne hndinj]
      exact hperm.erase _

/-- C8: every sequence of push/insert/remove operations leaves at most
    `size` elements; inserting a fresh descriptor into a full ordered set
    evicts the element at the policy end — the minimum of the combined
    collection when keepBiggest is true, the maximum when false — keeping
    the rest; concretely, inserting ids 1, 10, 2, 5, 3, 6 into an empty
    capacity-4 set yields ids (1, 2, 3, 5) with keepBiggest = false and
    (3, 5, 6, 10) with keepBiggest = true. -/
theorem c8_descriptorSet_bound_and_eviction :
    (∀ (ops : List DSetOp) (dset : DescriptorSet),
      dset.descriptors.length ≤ dset.size →
      (applyOps dset ops).descriptors.length ≤ dset.size) ∧
    (∀ (dset : DescriptorSet) (d : Descriptor),
      (∀ x ∈ dset.descriptors, x.id.wf) → d.id.wf →
      List.Chain' (fun a b : Descriptor => a.id.val < b.id.val) dset.descriptors →
      (∀ x ∈ dset.descriptors, x.id.val ≠ d.id.val) →
      dset.descriptors.length = dset.size → 0 < dset.size →
      ∃ evicted, evicted ∈ d :: dset.descriptors ∧
        (dset.keepBiggest = true → ∀ x ∈ d :: dset.descriptors,
          evicted.id.val ≤ x.id.val) ∧
        (dset.keepBiggest = false → ∀ x ∈ d :: dset.descriptors,
          x.id.val ≤ evicted.id.val) ∧
        ((dset.insert d).1).descriptors.length = dset.size ∧
        List.Perm (((dset.insert d).1).descriptors)
          ((d :: dset.descriptors).erase evicted)) ∧
    ((applyOps ⟨[], 4, false⟩
        [DSetOp.insert ⟨⟨0, 1⟩, ""⟩, DSetOp.insert ⟨⟨0, 10⟩, ""⟩,
          DSetOp.insert ⟨⟨0, 2⟩, ""⟩, DSetOp.insert ⟨⟨0, 5⟩, ""⟩,
          DSetOp.insert ⟨⟨0, 3⟩, ""⟩,
          DSetOp.insert ⟨⟨0, 6⟩, ""⟩]).descriptors.map fun x => x.id.low)
      = [1, 2, 3, 5] ∧
    ((applyOps ⟨[], 4, true⟩
        [DSetOp.insert ⟨⟨0, 1⟩, ""⟩, DSetOp.insert ⟨⟨0, 10⟩, ""⟩,
          DSetOp.insert ⟨⟨0, 2⟩, ""⟩, DSetOp.insert ⟨⟨0, 5⟩, ""⟩,
          DSetOp.insert ⟨⟨0, 3⟩, ""⟩,
          DSetOp.insert ⟨⟨0, 6⟩, ""⟩]).descriptors.map fun x => x.id.low)
      = [3, 5, 6, 10] :=
  ⟨fun ops dset h => applyOps_bound ops dset h, insert_full_evicts,
    by simp [applyOps, applyOp, DescriptorSet.insert, DescriptorSet.inject,
      DescriptorSet.indexOf, DescriptorSet.isFull, sortSearchGo, trimToSize,
      defaultSearch, cmpID, zeroDesc, zeroID],
    by simp [applyOps, applyOp, DescriptorSet.insert, DescriptorSet.inject,
      DescriptorSet.indexOf, DescriptorSet.isFull, sortSearchGo, trimToSize,
      defaultSearch, cmpID, zeroDesc, zeroID]⟩

/-- Witness for C8: the concrete operation sequence respects the bound, and
    inserting id 7 into the full singleton set (5) with keepBiggest evicts
    the minimum. -/
theorem c8_witness :
    (applyOps ⟨[], 4, false⟩
      [DSetOp.insert ⟨⟨0, 1⟩, ""⟩, DSetOp.insert ⟨⟨0, 10⟩, ""⟩,
        DSetOp.insert ⟨⟨0, 2⟩, ""⟩, DSetOp.insert ⟨⟨0, 5⟩, ""⟩,
        DSetOp.insert ⟨⟨0, 3⟩, ""⟩,
        DSetOp.insert ⟨⟨0, 6⟩, ""⟩]).descriptors.length ≤ 4 ∧
    ∃ evicted, evicted ∈ (⟨⟨0, 7⟩, "b"⟩ : Descriptor)
        :: (⟨[⟨⟨0, 5⟩, "a"⟩], 1, true⟩ : DescriptorSet).descriptors ∧
      ((⟨[⟨⟨0, 5⟩, "a"⟩], 1, true⟩ : DescriptorSet).keepBiggest = true →
        ∀ x ∈ (⟨⟨0, 7⟩, "b"⟩ : Descriptor)
          :: (⟨[⟨⟨0, 5⟩, "a"⟩], 1, true⟩ : DescriptorSet).descriptors,
          evicted.id.val ≤ x.id.val) ∧
      ((⟨[⟨⟨0, 5⟩, "a"⟩], 1, true⟩ : DescriptorSet).keepBiggest = false →
        ∀ x ∈ (⟨⟨0, 7⟩, "b"⟩ : Descriptor)
          :: (⟨[⟨⟨0, 5⟩, "a"⟩], 1, true⟩ : DescriptorSet).descriptors,
          x.id.val ≤ evicted.id.val) ∧
      (((⟨[⟨⟨0, 5⟩, "a"⟩], 1, true⟩ : DescriptorSet).insert
        ⟨⟨0, 7⟩, "b"⟩).1).descriptors.length
        = (⟨[⟨⟨0, 5⟩, "a"⟩], 1, true⟩ : DescriptorSet).size ∧
      List.Perm ((((⟨[⟨⟨0, 5⟩, "a"⟩], 1, true⟩ : DescriptorSet).insert
          ⟨⟨0, 7⟩, "b"⟩).1).descriptors)
        (((⟨⟨0, 7⟩, "b"⟩ : Descriptor)
          :: (⟨[⟨⟨0, 5⟩, "a"⟩], 1, true⟩ : DescriptorSet).descriptors).erase evicted) :=
  ⟨c8_descriptorSet_bound_and_eviction.1
      [DSetOp.insert ⟨⟨0, 1⟩, ""⟩, DSetOp.insert ⟨⟨0, 10⟩, ""⟩,
        DSetOp.insert ⟨⟨0, 2⟩, ""⟩, DSetOp.insert ⟨⟨0, 5⟩, ""⟩,
        DSetOp.insert ⟨⟨0, 3⟩, ""⟩, DSetOp.insert ⟨⟨0, 6⟩, ""⟩]
      ⟨[], 4, false⟩ (by decide),
    c8_descriptorSet_bound_and_eviction.2.1 ⟨[⟨⟨0, 5⟩, "a"⟩], 1, true⟩ ⟨⟨0, 7⟩, "b"⟩
      (by decide) (by decide) (List.chain'_singleton _) (by decide) (by decide) (by decide)⟩

/-- `add64` computes exact addition when the sum fits in 128 bits. -/
theorem add64_repr (v : IDq) (d : Nat) (hv : v.wf) (h : v.val + d < 2 ^ 128) :
    (add64 v d).val = v.val + d ∧ (add64 v d).wf := by
  obtain ⟨hh, hl⟩ := hv
  simp only [IDq.val, two64] at h
  simp only [add64, IDq.val, IDq.wf, two64] at *
  constructor
  · omega
  · omega

/-- `mul64` computes exact multiplication when the product fits in 128 bits. -/
theorem mul64_repr (v : IDq) (o : Nat) (hv : v.wf) (h : v.val * o < 2 ^ 128) :
    (mul64 v o).val = v.val * o ∧ (mul64 v o).wf := by
  obtain ⟨hh, hl⟩ := hv
  simp only [IDq.val, two64] at h
  simp only [mul64, IDq.val, IDq.wf, two64] at *
  have hexp : (v.high * 2 ^ 64 + v.low) * o = v.high * o * 2 ^ 64 + v.low * o := by ring
  rw [hexp] at h ⊢
  constructor
  · omega
  · omega

/-- `quoRem64` computes the exact 128-bit quotient and remainder for a
    positive divisor, and the quotient is well formed. -/
theorem quoRem64_spec (v : IDq) (o : Nat) (hv : v.wf) (ho : 0 < o) :
    ((quoRem64 v o).1).val = v.val / o ∧ (quoRem64 v o).2 = v.val % o ∧
      ((quoRem64 v o).1).wf := by
  obtain ⟨hh, hl⟩ := hv
  unfold quoRem64 bitsDiv64
  by_cases hbr : v.high < o
  · rw [if_pos hbr]
    refine ⟨by simp [IDq.val], rfl, ?_⟩
    constructor
    · simp [two64]
    · simp only [two64] at *
      rw [Nat.div_lt_iff_lt_mul ho]
      calc v.high * 2 ^ 64 + v.low < (v.high + 1) * 2 ^ 64 := by omega
        _ ≤ o * 2 ^ 64 := Nat.mul_le_mul_right _ (by omega)
        _ = 2 ^ 64 * o := Nat.mul_comm _ _
  · rw [if_neg hbr]
    have hkey : v.high / o * two64 + (v.high % o * two64 + v.low) / o
        = (v.high * two64 + v.low) / o := by
      conv_rhs => rw [← Nat.mod_add_div v.high o]
      have hsplit : (v.high % o + o * (v.high / o)) * two64 + v.low
          = v.high % o * two64 + v.low + o * (v.high / o * two64) := by ring
      rw [hsplit, Nat.add_mul_div_left _ _ ho]
      omega
    refine ⟨?_, ?_, ?_, ?_⟩
    · simp only [IDq.val, Nat.zero_mul, Nat.zero_add]
      exact hkey
    · simp only [Nat.zero_mul, Nat.zero_add]
      conv_rhs => rw [IDq.val, ← Nat.mod_add_div v.high o]
      have hsplit : (v.high % o + o * (v.high / o)) * two64 + v.low
          = v.high % o * two64 + v.low + o * (v.high / o * two64) := by ring
      rw [hsplit, Nat.add_mul_mod_self_left]
    · simp only [Nat.zero_mul, Nat.zero_add, two64] at *
      exact lt_of_le_of_lt (Nat.div_le_self _ _) hh
    · simp only [Nat.zero_mul, Nat.zero_add, two64] at *
      rw [Nat.div_lt_iff_lt_mul ho]
      have hmo : v.high % o < o := Nat.mod_lt _ ho
      calc v.high % o * 2 ^ 64 + v.low < (v.high % o + 1) * 2 ^ 64 := by omega
        _ ≤ o * 2 ^ 64 := Nat.mul_le_mul_right _ (by omega)
        _ = 2 ^ 64 * o := Nat.mul_comm _ _

/-- A run of positions holding byte 48 turns a drop into a replicate block. -/
theorem drop_eq_replicate_append (l : List Nat) (a k : Nat)
    (hlen : a + k ≤ l.length) (hc : ∀ j, a ≤ j → j < a + k → l.getD j 0 = 48) :
    l.drop a = List.replicate k 48 ++ l.drop (a + k) := by
  induction k generalizing a with
  | zero => simp
  | succ k ih =>
    have ha : a < l.length := by omega
    rw [List.drop_eq_getElem_cons ha]
    have h48 : l[a] = 48 := by
      have := hc a (le_refl a) (by omega)
      rwa [List.getD_eq_getElem l 0 ha] at this
    rw [List.replicate_succ, List.cons_append, h48]
    have hrec := ih (a + 1) (by omega) (fun j hj1 hj2 => hc j (by omega) (by omega))
    rw [hrec]
    have : a + 1 + k = a + (k + 1) := by omega
    rw [this]

/-- Bound on the number of decimal digits. -/
theorem digits_len_le_of_lt (r k : Nat) (h : r < 10 ^ k) :
    (Nat.digits 10 r).length ≤ k := by
  rcases Nat.eq_zero_or_pos r with h0 | h0
  · subst h0; simp
  · rw [Nat.digits_len 10 r (by norm_num) (by omega)]
    have hlog : Nat.log 10 r < k := Nat.log_lt_of_lt_pow (by omega) h
    omega

/-- Peeling the initial accumulator out of the decimal fold. -/
theorem foldl_dec_init (p : Nat) (ds : List Nat) :
    ds.foldl (fun a d => a * 10 + d) p
      = p * 10 ^ ds.length + ds.foldl (fun a d => a * 10 + d) 0 := by
  induction ds generalizing p with
  | nil => simp
  | cons d t ih =>
    simp only [List.foldl_cons, List.length_cons]
    rw [ih (p * 10 + d), ih (0 * 10 + d)]
    ring

/-- Folding the reversed digit list of v recovers v. -/
theorem foldl_digits_reverse (v : Nat) :
    ((Nat.digits 10 v).reverse).foldl (fun a d => a * 10 + d) 0 = v := by
  rw [List.foldl_reverse]
  have hgen : ∀ l : List Nat, l.foldr (fun x y => y * 10 + x) 0 = Nat.ofDigits 10 l := by
    intro l
    induction l with
    | nil => simp [Nat.ofDigits_nil]
    | cons d t ih =>
      simp only [List.foldr_cons, ih, Nat.ofDigits_cons]
      omega
  calc (Nat.digits 10 v).foldr (fun x y => y * 10 + x) 0
      = Nat.ofDigits 10 (Nat.digits 10 v) := hgen _
    _ = v := Nat.ofDigits_digits 10 v

theorem writeChunk_spec (r : Nat) : ∀ (buf : List Nat) (i n0 : Nat), 0 < r →
    n0 + (Nat.digits 10 r).length ≤ i → i ≤ buf.length →
    (∀ j, i - n0 - (Nat.digits 10 r).length ≤ j → j < i - n0 → buf.getD j 0 = 48) →
    (writeChunk i buf n0 r).2 = n0 + (Nat.digits 10 r).length ∧
    (writeChunk i buf n0 r).1.length = buf.length ∧
    (∀ j, j < i - n0 - (Nat.digits 10 r).length →
      (writeChunk i buf n0 r).1.getD j 0 = buf.getD j 0) ∧
    (writeChunk i buf n0 r).1.drop (i - n0 - (Nat.digits 10 r).length)
      = ((Nat.digits 10 r).reverse.map fun d => 48 + d) ++ buf.drop (i - n0) := by
  induction r using Nat.strong_induction_on with
  | _ r ih =>
  intro buf i n0 hr hlen hbuf hreg
  have hdig : Nat.digits 10 r = r % 10 :: Nat.digits 10 (r / 10) :=
    Nat.digits_def' (by norm_num) hr
  have hlen1 : 1 ≤ (Nat.digits 10 r).length := by rw [hdig]; simp
  have hn0i : n0 + 1 ≤ i := by omega
  have hsetpos : i - (n0 + 1) = i - n0 - 1 := by omega
  have hold : buf.getD (i - (n0 + 1)) 0 = 48 := by
    rw [hsetpos]
    exact hreg (i - n0 - 1) (by omega) (by omega)
  have hbuf1 : buf.set (i - (n0 + 1)) (buf.getD (i - (n0 + 1)) 0 + r % 10)
      = buf.set (i - n0 - 1) (48 + r % 10) := by
    rw [hold, hsetpos]
  -- the freshly written cell, and the drop decomposition of the new buffer
  have hdroppos : i - n0 - 1 < buf.length := by omega
  have hdrop1 : (buf.set (i - n0 - 1) (48 + r % 10)).drop (i - n0 - 1)
      = (48 + r % 10) :: buf.drop (i - n0) := by
    have hl : i - n0 - 1 < (buf.set (i - n0 - 1) (48 + r % 10)).length := by
      rw [List.length_set]; omega
    rw [List.drop_eq_getElem_cons hl]
    congr 1
    · exact List.getElem_set_eq hl
    · rw [List.drop_set_of_lt _ _ (by omega : i - n0 - 1 < i - n0 - 1 + 1)]
      congr 1
      omega
  rw [writeChunk, dif_neg (by omega : ¬ r = 0), hbuf1]
  by_cases hq : r / 10 = 0
  · -- last digit: the recursive call hits the r = 0 base case
    rw [hq, writeChunk, dif_pos rfl]
    have hdig2 : Nat.digits 10 r = [r % 10] := by rw [hdig, hq]; simp
    have hL1 : (Nat.digits 10 r).length = 1 := by rw [hdig2]; rfl
    refine ⟨by simp [hL1], by simp [List.length_set], ?_, ?_⟩
    · intro j hj
      rw [hL1] at hj
      rw [List.getD_eq_getElem?_getD, List.getD_eq_getElem?_getD,
        List.getElem?_set_ne (by omega : i - n0 - 1 ≠ j)]
    · rw [hL1, hdig2]
      simp only [List.reverse_cons, List.reverse_nil, List.nil_append, List.map_cons,
        List.map_nil]
      rw [hdrop1]
      rfl
  · -- more digits remain: apply the induction hypothesis at r / 10
    have hqpos : 0 < r / 10 := Nat.pos_of_ne_zero hq
    have hlt : r / 10 < r := Nat.div_lt_self hr (by norm_num)
    have hLL : (Nat.digits 10 r).length = (Nat.digits 10 (r / 10)).length + 1 := by
      rw [hdig]; simp
    have hreg1 : ∀ j, i - (n0 + 1) - (Nat.digits 10 (r / 10)).length ≤ j →
        j < i - (n0 + 1) →
        (buf.set (i - n0 - 1) (48 + r % 10)).getD j 0 = 48 := by
      intro j hj1 hj2
      rw [List.getD_eq_getElem?_getD,
        List.getElem?_set_ne (by omega : i - n0 - 1 ≠ j),
        ← List.getD_eq_getElem?_getD]
      exact hreg j (by omega) (by omega)
    obtain ⟨ha, hb, hc, hd⟩ := ih (r / 10) hlt (buf.set (i - n0 - 1) (48 + r % 10)) i
      (n0 + 1) hqpos (by omega) (by rw [List.length_set]; omega) hreg1
    refine ⟨by rw [ha, hLL]; omega, by rw [hb, List.length_set], ?_, ?_⟩
    · intro j hj
      rw [hc j (by omega), List.getD_eq_getElem?_getD, List.getD_eq_getElem?_getD,
        List.getElem?_set_ne (by omega : i - n0 - 1 ≠ j)]
    · have hidx : i - (n0 + 1) - (Nat.digits 10 (r / 10)).length
          = i - n0 - (Nat.digits 10 r).length := by omega
      rw [hidx] at hd
      rw [hd]
      have hidx2 : i - (n0 + 1) = i - n0 - 1 := by omega
      rw [hidx2, hdrop1, hdig]
      simp only [List.reverse_cons, List.map_append, List.map_cons, List.map_nil]
      rw [List.append_assoc]
      rfl

/-- `stringLoop` writes precisely the decimal expansion of v followed by the
    untouched tail of the buffer. -/
theorem stringLoop_spec (n : Nat) : ∀ (v : IDq) (buf : List Nat) (i : Nat),
    v.val = n → v.wf → 0 < v.val → v.val < 10 ^ i → i ≤ buf.length →
    (∀ j, j < i → buf.getD j 0 = 48) →
    stringLoop v buf i
      = ((Nat.digits 10 v.val).reverse.map fun d => 48 + d) ++ buf.drop i := by
  induction n using Nat.strong_induction_on with
  | _ n ih =>
  intro v buf i hn hv h0 hvi hbl hreg
  obtain ⟨hqval, hrval, hqwf⟩ := quoRem64_spec v (10 ^ 19) hv (by positivity)
  have hrlt : (quoRem64 v (10 ^ 19)).2 < 10 ^ 19 := by
    rw [hrval]; exact Nat.mod_lt _ (by positivity)
  rw [stringLoop]
  by_cases hz : (quoRem64 v (10 ^ 19)).1 = zeroID
  · rw [dif_pos hz]
    have hq0 : v.val / 10 ^ 19 = 0 := by
      rw [← hqval, hz]; simp [zeroID, IDq.val]
    have hvlt : v.val < 10 ^ 19 := by
      by_contra hc
      push_neg at hc
      have hdp : 0 < v.val / 10 ^ 19 := Nat.div_pos hc (by positivity)
      omega
    have hrv : (quoRem64 v (10 ^ 19)).2 = v.val := by
      rw [hrval, Nat.mod_eq_of_lt hvlt]
    have hdlen : (Nat.digits 10 v.val).length ≤ i := by
      exact digits_len_le_of_lt _ _ hvi
    obtain ⟨ha, hb, hc, hd⟩ := writeChunk_spec (quoRem64 v (10 ^ 19)).2 buf i 0
      (by omega) (by rw [hrv]; omega) hbl
      (fun j hj1 hj2 => hreg j (by omega))
    rw [hrv] at ha hd ⊢
    rw [ha]
    have hi0 : i - (0 + (Nat.digits 10 v.val).length) = i - 0 - (Nat.digits 10 v.val).length := by
      omega
    rw [hi0, hd, Nat.sub_zero]
  · rw [dif_neg hz]
    have hqpos : 0 < v.val / 10 ^ 19 := by
      rcases Nat.eq_zero_or_pos (v.val / 10 ^ 19) with hc | hc
      · exfalso
        apply hz
        rw [← (IDq.val_eq_zero_iff _), hqval, hc]
      · exact hc
    have hge : 10 ^ 19 ≤ v.val := by
      by_contra hlt
      rw [Nat.div_eq_of_lt (by omega)] at hqpos
      exact absurd hqpos (lt_irrefl 0)
    have hi20 : 19 < i := by
      have h1 : (10 : Nat) ^ 19 < 10 ^ i := lt_of_le_of_lt hge hvi
      exact (Nat.pow_lt_pow_iff_right (by norm_num)).mp h1
    have hqlt : v.val / 10 ^ 19 < 10 ^ (i - 19) := by
      rw [Nat.div_lt_iff_lt_mul (by positivity)]
      calc v.val < 10 ^ i := hvi
        _ = 10 ^ (i - 19) * 10 ^ 19 := by rw [← pow_add]; congr 1; omega
    have hihlt : v.val / 10 ^ 19 < n := by
      rw [← hn]
      exact Nat.div_lt_self h0 (by norm_num)
    by_cases hr0 : (quoRem64 v (10 ^ 19)).2 = 0
    · -- the low chunk is all zeroes: nothing is written this round
      rw [hr0, writeChunk, dif_pos rfl]
      show stringLoop (quoRem64 v (10 ^ 19)).1 buf (i - 19) = _
      have hvq : v.val = 10 ^ 19 * (v.val / 10 ^ 19) := by
        have := Nat.div_add_mod v.val (10 ^ 19)
        rw [hrval] at hr0
        omega
      have hrec := ih (v.val / 10 ^ 19) hihlt (quoRem64 v (10 ^ 19)).1 buf (i - 19)
        hqval hqwf (by omega) (by rw [hqval]; exact hqlt) (by omega)
        (fun j hj => hreg j (by omega))
      rw [hrec, hqval]
      have hdrop : buf.drop (i - 19) = List.replicate 19 48 ++ buf.drop i := by
        have h1 := drop_eq_replicate_append buf (i - 19) 19 (by omega)
          (fun j hj1 hj2 => hreg j (by omega))
        have h2 : i - 19 + 19 = i := by omega
        rw [h2] at h1
        exact h1
      rw [hdrop]
      have hdigs : Nat.digits 10 v.val
          = List.replicate 19 0 ++ Nat.digits 10 (v.val / 10 ^ 19) := by
        conv_lhs => rw [hvq]
        exact Nat.digits_base_pow_mul (by norm_num) hqpos
      rw [hdigs, List.reverse_append, List.reverse_replicate, List.map_append]
      simp only [List.map_replicate]
      rw [List.append_assoc]
    · -- a positive low chunk is written, padded with 48s up to 19 cells
      have hrpos : 0 < (quoRem64 v (10 ^ 19)).2 := Nat.pos_of_ne_zero hr0
      have hrlen : (Nat.digits 10 ((quoRem64 v (10 ^ 19)).2)).length ≤ 19 :=
        digits_len_le_of_lt _ _ hrlt
      obtain ⟨ha, hb, hc, hd⟩ := writeChunk_spec (quoRem64 v (10 ^ 19)).2 buf i 0
        hrpos (by omega) hbl (fun j hj1 hj2 => hreg j (by omega))
      set r := (quoRem64 v (10 ^ 19)).2 with hrdef
      set lr := (Nat.digits 10 r).length with hlr
      set B := (writeChunk i buf 0 r).1 with hB
      have hrec := ih (v.val / 10 ^ 19) hihlt (quoRem64 v (10 ^ 19)).1 B (i - 19)
        hqval hqwf (by omega) (by rw [hqval]; exact hqlt) (by rw [hb]; omega)
        (fun j hj => by
          rw [hc j (by omega)]
          exact hreg j (by omega))
      rw [hrec, hqval]
      have hdropB : B.drop (i - 19) = List.replicate (19 - lr) 48 ++ B.drop (i - lr) := by
        have h1 := drop_eq_replicate_append B (i - 19) (19 - lr)
          (by rw [hb]; omega)
          (fun j hj1 hj2 => by
            rw [hc j (by omega)]
            exact hreg j (by omega))
        have h2 : i - 19 + (19 - lr) = i - lr := by omega
        rw [h2] at h1
        exact h1
      have hdB2 : B.drop (i - lr)
          = ((Nat.digits 10 r).reverse.map fun d => 48 + d) ++ buf.drop i := by
        have h1 : i - 0 - lr = i - lr := by omega
        have h2 : i - 0 = i := by omega
        rw [h1, h2] at hd
        exact hd
      rw [hdropB, hdB2]
      have hvrq : v.val = r + 10 ^ (lr + (19 - lr)) * (v.val / 10 ^ 19) := by
        have h3 : lr + (19 - lr) = 19 := by omega
        rw [h3]
        have := Nat.div_add_mod v.val (10 ^ 19)
        rw [← hrval] at this
        omega
      have hdigs : Nat.digits 10 v.val
          = Nat.digits 10 r ++ List.replicate (19 - lr) 0
            ++ Nat.digits 10 (v.val / 10 ^ 19) := by
        conv_lhs => rw [hvrq]
        exact (Nat.digits_append_zeroes_append_digits (by norm_num) hqpos).symm
      rw [hdigs]
      rw [List.reverse_append, List.reverse_append, List.reverse_replicate,
        List.map_append, List.map_append]
      simp only [List.map_replicate]
      rw [List.append_assoc, List.append_assoc]

/-- `ID.String` produces the canonical decimal numeral: "0" for the zero id,
    otherwise the most-significant-first digit characters of the value. -/
theorem idString_repr (v : IDq) (hv : v.wf) :
    idString v = if v = zeroID then [48]
      else (Nat.digits 10 v.val).reverse.map fun d => 48 + d := by
  by_cases h : v = zeroID
  · rw [idString, if_pos h, if_pos h]
  · rw [idString, if_neg h, if_neg h]
    have h0 : 0 < v.val := by
      rcases Nat.eq_zero_or_pos v.val with hc | hc
      · exact absurd ((IDq.val_eq_zero_iff v).mp hc) h
      · exact hc
    have hvi : v.val < 10 ^ 40 := by
      calc v.val < 2 ^ 128 := IDq.val_lt_two128 v hv
        _ < 10 ^ 40 := by norm_num
    have hrun := stringLoop_spec v.val v (List.replicate 40 48) 40 rfl hv h0 hvi
      (by simp) (fun j hj => by
        rw [List.getD_eq_getElem?_getD, List.getElem?_replicate, if_pos hj]
        rfl)
    rw [hrun, List.drop_replicate]
    simp

/-- The digit loop of `Parse` on a canonical numeral: starting from an
    accumulator holding p, consuming the digit characters of ds yields the
    id whose value appends ds to p in base 10. -/
theorem parseLoop_canonical (ds : List Nat) : ∀ (res : IDq) (p : Nat),
    res.wf → res.val = p →
    (∀ x ∈ ds, x < 10) →
    p * 10 ^ ds.length + ds.foldl (fun a d => a * 10 + d) 0 ≤ 2 ^ 128 - 1 →
    (p = 0 → ds.head? ≠ some 0) →
    ∃ r : IDq, parseLoop (div64 maxID 10) (ds.map fun d => 48 + d) res = some r ∧
      r.wf ∧ r.val = p * 10 ^ ds.length + ds.foldl (fun a d => a * 10 + d) 0 := by
  induction ds with
  | nil =>
    intro res p hwf hval _ _ _
    exact ⟨res, rfl, hwf, by simpa using hval⟩
  | cons d t ih =>
    intro res p hwf hval hds hbound hz
    have hd10 : d < 10 := hds d (by simp)
    have hp1 : (10 : Nat) ^ t.length ≥ 1 := Nat.one_le_pow _ _ (by norm_num)
    have hps : (10 : Nat) ^ (d :: t).length = 10 * 10 ^ t.length := by
      rw [List.length_cons, pow_succ]
      ring
    have hfold : (d :: t).foldl (fun a d => a * 10 + d) 0
        = d * 10 ^ t.length + t.foldl (fun a d => a * 10 + d) 0 := by
      rw [List.foldl_cons, foldl_dec_init]
      norm_num
    have hcwf : (div64 maxID 10).wf := by decide
    have hcval : (div64 maxID 10).val = (2 ^ 128 - 1) / 10 := by decide
    have hple : p * 10 ≤ 2 ^ 128 - 1 := by
      have h1 : p * 10 ≤ p * 10 ^ (d :: t).length := by
        apply Nat.mul_le_mul_left
        rw [hps]
        have := hp1
        omega
      omega
    have hcut : ¬ 0 < cmpID res (div64 maxID 10) := by
      rw [cmpID_pos_iff res _ hwf hcwf, hcval, hval]
      have := (Nat.le_div_iff_mul_le (by norm_num : (0:Nat) < 10)).mpr hple
      omega
    have hm : res.val * 10 < 2 ^ 128 := by
      rw [hval]
      omega
    obtain ⟨hmv, hmwf⟩ := mul64_repr res 10 hwf hm
    have hadd : (mul64 res 10).val + d < 2 ^ 128 := by
      rw [hmv, hval]
      rw [hps, hfold] at hbound
      have e1 : p * 10 ≤ p * (10 * 10 ^ t.length) := Nat.mul_le_mul_left p (by omega)
      have e2 : d * 1 ≤ d * 10 ^ t.length := Nat.mul_le_mul_left d hp1
      omega
    obtain ⟨hav, hawf⟩ := add64_repr (mul64 res 10) d hmwf hadd
    have hnv : (add64 (mul64 res 10) d).val = p * 10 + d := by
      rw [hav, hmv, hval]
    have hdp : p ≠ 0 ∨ d ≠ 0 := by
      rcases Nat.eq_zero_or_pos p with hp0 | hp0
      · right
        intro hd0
        exact hz hp0 (by rw [hd0]; rfl)
      · left
        omega
    have hgt : ¬ cmpID (add64 (mul64 res 10) d) res ≤ 0 := by
      rw [cmpID_le_zero_iff _ _ hawf hwf, hnv, hval]
      omega
    have hbound2 : (p * 10 + d) * 10 ^ t.length
        + t.foldl (fun a d => a * 10 + d) 0 ≤ 2 ^ 128 - 1 := by
      rw [hps, hfold] at hbound
      have h2 : (p * 10 + d) * 10 ^ t.length
          = p * (10 * 10 ^ t.length) + d * 10 ^ t.length := by ring
      omega
    obtain ⟨r, hpr, hrwf, hrval⟩ := ih (add64 (mul64 res 10) d) (p * 10 + d)
      hawf hnv (fun x hx => hds x (by simp [hx])) hbound2
      (fun hc => absurd hc (by omega))
    refine ⟨r, ?_, hrwf, ?_⟩
    · simp only [List.map_cons, parseLoop]
      rw [if_neg (by omega : ¬ (48 + d ≤ 48 ∧ 57 ≤ 48 + d)), if_neg hcut]
      have hdig : (48 + d + 256 - 48) % 256 = d := by omega
      rw [hdig, if_neg hgt]
      exact hpr
    · rw [hrval, hps, hfold]
      ring

/-- C5: for every well-formed 128-bit id a, formatting a with ID.String and
    parsing the result with Parse returns a without error: Parse is a left
    inverse of String on canonical numerals. -/
theorem c5_parse_string_roundtrip (a : IDq) (ha : a.wf) :
    parseID (idString a) = some a := by
  by_cases h0 : a = zeroID
  · subst h0
    rfl
  · rw [idString_repr a ha, if_neg h0]
    have hvne : a.val ≠ 0 := fun hc => h0 ((IDq.val_eq_zero_iff a).mp hc)
    have hdne : Nat.digits 10 a.val ≠ [] := Nat.digits_ne_nil_iff_ne_zero.mpr hvne
    have hhead : (Nat.digits 10 a.val).reverse.head? ≠ some 0 := by
      intro hc
      rw [List.head?_reverse, List.getLast?_eq_getLast _ hdne] at hc
      exact Nat.getLast_digit_ne_zero 10 hvne (Option.some.inj hc)
    rw [parseID, if_neg ?hspecial]
    case hspecial =>
      rintro (hc | hc)
      · rw [List.map_eq_nil_iff, List.reverse_eq_nil_iff] at hc
        exact hdne hc
      · rcases hds : (Nat.digits 10 a.val).reverse with _ | ⟨d, t⟩
        · rw [hds] at hc
          simp at hc
        · rw [hds] at hc
          simp only [List.map_cons, List.cons.injEq] at hc
          apply hhead
          rw [hds]
          have : d = 0 := by omega
          rw [this]
          rfl
    obtain ⟨r, hpr, hrwf, hrval⟩ := parseLoop_canonical (Nat.digits 10 a.val).reverse
      zeroID 0 (by constructor <;> norm_num [two64, zeroID]) rfl
      (fun x hx => Nat.digits_lt_base (by norm_num) (List.mem_reverse.mp hx))
      (by
        rw [foldl_digits_reverse]
        have := IDq.val_lt_two128 a ha
        omega)
      (fun _ => hhead)
    rw [hpr]
    congr 1
    apply IDq.val_inj hrwf ha
    rw [hrval, foldl_digits_reverse]
    omega

/-- Concrete instance of C5 at the largest 128-bit id. -/
theorem c5_witness : maxID.wf ∧ parseID (idString maxID) = some maxID :=
  ⟨by decide, c5_parse_string_roundtrip maxID (by decide)⟩

end Croissant
